import Mathlib

/-!
Verification of the revision/concurrency/sync-token engine of
`django_etesync/serializers.py` against its specification.

The serializer layer is embedded shallowly: the database is a `State`
record of lists (one per table), each serializer `create`/`update`
method becomes a function `State → Except Err State`, and
`transaction.atomic` is reflected by `applyOp`, which keeps the old
state whenever an operation returns an error (rollback).

`models.py` is not part of the sources; model-level behaviour that the
serializers rely on (the `Stoken` allocator, the `etag` properties, the
`current` default of a revision, the `(collection, user)` uniqueness of
memberships, a collection's `main_item`) is modelled from the spec and
marked as such in the corresponding doc comments.
-/

/-- Byte strings are lists of byte values. -/
abbrev Bytes := List Nat

/-- Access levels of a collection member (`models.AccessLevels`). -/
inductive AccessLevel where
  | readOnly
  | readWrite
  | admin
  deriving DecidableEq, Repr

/-- A stored chunk row (`models.CollectionItemChunk`): the serializer
creates it with `uid=uid, item=item` and saves the supplied bytes into
its `chunkFile`. -/
structure Chunk where
  id : Nat
  uid : String
  itemId : Nat
  content : Bytes
  deriving DecidableEq, Repr

/-- An item row (`models.CollectionItem`): `uid` is null exactly for a
collection's main item; `collectionId` is the owning collection. -/
structure Item where
  id : Nat
  uid : Option String
  version : Nat
  encryptionKey : Option Bytes
  collectionId : Option Nat
  deriving DecidableEq, Repr

/-- A revision row (`models.CollectionItemRevision`).  Modelled from the
spec: a freshly created revision has `current = true` (the serializer
passes no `current` value, so the model default applies), and demotion
in the serializers assigns `current = None`, hence the `Option Bool`
carrier. -/
structure Revision where
  id : Nat
  uid : String
  stoken : Nat
  meta : Bytes
  deleted : Bool
  current : Option Bool
  itemId : Nat
  deriving DecidableEq, Repr

/-- A collection row (`models.Collection`). -/
structure Collection where
  id : Nat
  uid : String
  version : Nat
  owner : Nat
  deriving DecidableEq, Repr

/-- A membership row (`models.CollectionMember`). -/
structure Member where
  id : Nat
  collectionId : Nat
  user : Nat
  accessLevel : AccessLevel
  encryptionKey : Bytes
  stoken : Nat
  deriving DecidableEq, Repr

/-- An invitation row (`models.CollectionInvitation`). -/
structure Invitation where
  id : Nat
  uid : String
  collectionId : Nat
  fromMemberId : Nat
  user : Nat
  accessLevel : AccessLevel
  signedEncryptionKey : Bytes
  version : Nat
  deriving DecidableEq, Repr

/-- The database state.  `nextId` is the shared primary-key allocator of
all tables; `stokenCounter` is the Stoken allocator.  Modelled from the
spec: `models.Stoken` is not in the sources, and the spec contracts its
allocator to return tokens strictly greater than every previously
allocated one, so `Stoken.objects.create()` is embedded as returning
`stokenCounter` and incrementing it.  `revChunks` is the
`RevisionChunkRelation` table, appended in creation order. -/
structure State where
  nextId : Nat
  stokenCounter : Nat
  chunks : List Chunk
  items : List Item
  revisions : List Revision
  revChunks : List (Nat × Nat)
  collections : List Collection
  members : List Member
  invitations : List Invitation
  deriving DecidableEq, Repr

/-- Errors raised by the serializer layer. -/
inductive Err where
  | validationError (msg : String)
  | doesNotExist
  | multipleObjectsReturned
  | integrityError
  | attributeError
  deriving DecidableEq, Repr

/-- Django's `Model.objects.get(...)` on an already-filtered row list:
raises `DoesNotExist` on no match and `MultipleObjectsReturned` on more
than one. -/
def objGet {α : Type} (l : List α) : Except Err α :=
  match l with
  | [c] => .ok c
  | [] => .error .doesNotExist
  | _ => .error .multipleObjectsReturned

/-- Lookup of `models.CollectionItemChunk.objects.get(uid=uid)`. -/
def chunkGet (s : State) (uid : String) : Except Err Chunk :=
  objGet (s.chunks.filter (fun c => c.uid == uid))

/-- A chunk reference from the wire: a uid, optionally with inline
bytes (`ChunksField.to_internal_value`). -/
abbrev ChunkRef := String × Option Bytes

/-- Validated revision data (`CollectionItemRevisionSerializer` fields
`chunks` (source `chunks_relation`), `meta`, `uid`, `deleted`). -/
structure RevData where
  chunksRelation : List ChunkRef
  meta : Bytes
  uid : String
  deleted : Bool
  deriving DecidableEq, Repr

/-- The statements `chunk = models.CollectionItemChunk(uid=uid, item=item);
chunk.chunkFile.save(...); chunk.save()`: unconditionally inserts a new
chunk row (there is no presence check) and returns it. -/
def storeChunk (itemId : Nat) (s : State) (uid : String) (content : Bytes) :
    State × Chunk :=
  let c : Chunk := ⟨s.nextId, uid, itemId, content⟩
  ({ s with nextId := s.nextId + 1, chunks := s.chunks ++ [c] }, c)

/-- The chunk loop of `process_revisions_for_item`: for each reference
with inline bytes a new `CollectionItemChunk` row is created and saved
(no presence check), otherwise the chunk is fetched by uid alone.
Returns the updated state together with `chunks_objs` in loop order. -/
def processChunks (itemId : Nat) : State → List ChunkRef → Except Err (State × List Chunk)
  | s, [] => .ok (s, [])
  | s, (uid, some content) :: rest =>
      match processChunks itemId (storeChunk itemId s uid content).1 rest with
      | .ok (s2, objs) => .ok (s2, (storeChunk itemId s uid content).2 :: objs)
      | .error e => .error e
  | s, (uid, none) :: rest =>
      match chunkGet s uid with
      | .ok c =>
          match processChunks itemId s rest with
          | .ok (s2, objs) => .ok (s2, c :: objs)
          | .error e => .error e
      | .error e => .error e

/-- The function `process_revisions_for_item(item, revision_data)`:
processes the chunk references, allocates a fresh stoken, creates the
revision (current by default, see `Revision`), and creates one
`RevisionChunkRelation` row per chunk object in order.  Returns the new
revision's row id.  It never touches the previously current revision. -/
def processRevisionsForItem (item : Item) (rd : RevData) (s : State) :
    Except Err (State × Nat) :=
  match processChunks item.id s rd.chunksRelation with
  | .error e => .error e
  | .ok (s1, objs) =>
      let stoken := s1.stokenCounter
      let s2 : State := { s1 with stokenCounter := s1.stokenCounter + 1 }
      let rev : Revision := ⟨s2.nextId, rd.uid, stoken, rd.meta, rd.deleted, some true, item.id⟩
      let s3 : State := { s2 with
        nextId := s2.nextId + 1,
        revisions := s2.revisions ++ [rev],
        revChunks := s2.revChunks ++ objs.map (fun c => (rev.id, c.id)) }
      .ok (s3, rev.id)

/-- Python's `'...'.format` rendering of an optional string (`None`
prints as the text `None`). -/
def fmtOpt : Option String → String
  | none => "None"
  | some s => s

/-- The message of the etag `ValidationError` raised by
`CollectionItemSerializer.create` and `CollectionSerializer.update`. -/
def wrongEtagMsg (expected got : Option String) : String :=
  "Wrong etag. Expected " ++ fmtOpt expected ++ " got " ++ fmtOpt got

/-- The queryset `item.revisions.filter(current=True)` followed by
`.first()`. -/
def firstCurrent (s : State) (itemId : Nat) : Option Revision :=
  (s.revisions.filter (fun r => r.itemId == itemId && r.current == some true)).head?

/-- Modelled from the spec: `models.CollectionItem.etag` (models.py is
not in the sources) is the uid of the item's current revision, or the
no-revision sentinel `None`. -/
def itemEtag (s : State) (it : Item) : Option String :=
  (firstCurrent s it.id).map (fun r => r.uid)

/-- The statement `current_revision.current = None; current_revision.save()`
applied to the revision row with the given id. -/
def demoteRev (s : State) (revId : Nat) : State :=
  { s with
      revisions := s.revisions.map (fun r =>
        if r.id == revId then { r with current := none } else r) }

/-- Validated data of `CollectionItemSerializer.create` (fields `uid`,
`version`, `encryptionKey`, `content`, `etag`; `collectionId` stands for
the collection the view passes into `save`). -/
structure ItemUpsertReq where
  uid : String
  version : Nat
  encryptionKey : Bytes
  collectionId : Option Nat
  etag : Option String
  content : RevData
  deriving DecidableEq, Repr

/-- `CollectionItemSerializer.create`: inside one atomic transaction it
runs `get_or_create(uid=uid, defaults=validated_data)`, compares the
client etag against `instance.etag` when `validate_etag` is set in the
context (`cur_etag` is `None` for a freshly created row), demotes the
current revision of a pre-existing item, and calls
`process_revisions_for_item`. -/
def itemUpsert (validateEtag : Bool) (req : ItemUpsertReq) (s : State) :
    Except Err State :=
  match s.items.filter (fun it => it.uid == some req.uid) with
  | [] =>
      let inst : Item := ⟨s.nextId, some req.uid, req.version, some req.encryptionKey, req.collectionId⟩
      let s1 : State := { s with nextId := s.nextId + 1, items := s.items ++ [inst] }
      let curEtag : Option String := none
      if validateEtag && !(curEtag == req.etag) then
        .error (.validationError (wrongEtagMsg curEtag req.etag))
      else
        match processRevisionsForItem inst req.content s1 with
        | .ok (s2, _) => .ok s2
        | .error e => .error e
  | [inst] =>
      let curEtag := itemEtag s inst
      if validateEtag && !(curEtag == req.etag) then
        .error (.validationError (wrongEtagMsg curEtag req.etag))
      else
        match firstCurrent s inst.id with
        | none => .error .attributeError
        | some cur =>
            match processRevisionsForItem inst req.content (demoteRev s cur.id) with
            | .ok (s2, _) => .ok s2
            | .error e => .error e
  | _ => .error .multipleObjectsReturned

/-- Modelled from the spec: `models.CollectionMember` carries a unique
constraint on `(collection, user)` (invariant I3; models.py is not in
the sources), so creating a duplicate membership raises
`IntegrityError`.  The `stoken` argument of both creation sites is a
fresh `Stoken.objects.create()`. -/
def memberCreate (s : State) (collectionId user : Nat) (lvl : AccessLevel)
    (key : Bytes) : Except Err (State × Member) :=
  if s.members.any (fun m => m.collectionId == collectionId && m.user == user) then
    .error .integrityError
  else
    let m : Member := ⟨s.nextId, collectionId, user, lvl, key, s.stokenCounter⟩
    let s1 : State := { s with
      nextId := s.nextId + 1,
      stokenCounter := s.stokenCounter + 1,
      members := s.members ++ [m] }
    .ok (s1, m)

/-- Validated data of `CollectionSerializer.create` (fields `uid`,
`version`, `encryptionKey`, `content`, `etag`; `owner` is the request
user the view passes into `save`). -/
structure CollCreateReq where
  uid : String
  version : Nat
  owner : Nat
  encryptionKey : Bytes
  etag : Option String
  content : RevData
  deriving DecidableEq, Repr

/-- `CollectionSerializer.create`: rejects a non-null client etag before
any write, then saves the collection, creates the main item
(`uid=None, encryptionKey=None, version=instance.version`), builds its
initial revision, and saves an ADMIN membership for the owner with a
fresh stoken. -/
def collectionCreate (req : CollCreateReq) (s : State) : Except Err State :=
  if req.etag ≠ none then .error (.validationError "Stoken is not None")
  else
    let coll : Collection := ⟨s.nextId, req.uid, req.version, req.owner⟩
    let s1 : State := { s with nextId := s.nextId + 1, collections := s.collections ++ [coll] }
    let mi : Item := ⟨s1.nextId, none, coll.version, none, some coll.id⟩
    let s2 : State := { s1 with nextId := s1.nextId + 1, items := s1.items ++ [mi] }
    match processRevisionsForItem mi req.content s2 with
    | .error e => .error e
    | .ok (s3, _) =>
        match memberCreate s3 coll.id req.owner .admin req.encryptionKey with
        | .error e => .error e
        | .ok (s4, _) => .ok s4

/-- Modelled from the spec: `instance.main_item` (models.py is not in
the sources) is the collection's distinguished item with null uid. -/
def mainItem (s : State) (c : Collection) : Option Item :=
  s.items.find? (fun it => it.collectionId == some c.id && it.uid == none)

/-- Modelled from the spec: `models.Collection.etag` equals the main
item's current revision uid. -/
def collectionEtag (s : State) (c : Collection) : Option String :=
  (mainItem s c).bind (fun mi => (firstCurrent s mi.id).map (fun r => r.uid))

/-- `CollectionSerializer.update` on the collection with the given uid:
compares the client etag against `instance.etag`, demotes the main
item's current revision and builds the new one. -/
def collectionUpdate (uid : String) (etag : Option String) (rd : RevData)
    (s : State) : Except Err State :=
  match s.collections.find? (fun c => c.uid == uid) with
  | none => .error .doesNotExist
  | some inst =>
      if etag ≠ collectionEtag s inst then
        .error (.validationError (wrongEtagMsg (collectionEtag s inst) etag))
      else
        match mainItem s inst with
        | none => .error .attributeError
        | some mi =>
            match firstCurrent s mi.id with
            | none => .error .attributeError
            | some cur =>
                match processRevisionsForItem mi rd (demoteRev s cur.id) with
                | .ok (s2, _) => .ok s2
                | .error e => .error e

/-- `CollectionMemberSerializer.update`: only the access level may
change; when it actually differs, a fresh stoken is allocated and both
fields are saved, otherwise nothing happens. -/
def collectionMemberUpdate (memberId : Nat) (newLevel : AccessLevel) (s : State) :
    Except Err State :=
  match s.members.find? (fun m => m.id == memberId) with
  | none => .error .doesNotExist
  | some inst =>
      if inst.accessLevel ≠ newLevel then
        let s1 : State := { s with
          stokenCounter := s.stokenCounter + 1,
          members := s.members.map (fun m =>
            if m.id == memberId then
              { m with stoken := s.stokenCounter, accessLevel := newLevel }
            else m) }
        .ok s1
      else .ok s

/-- Validated data of `CollectionInvitationSerializer.create` plus the
request user.  The self-invite check of the source sits in a method
named `validate_user`, but the serializer field is named `username`, so
the framework (which dispatches to `validate_<field_name>`) never
invokes it; accordingly no self-invite comparison appears in the
pipeline embedded here. -/
structure InviteReq where
  requestUser : Nat
  collectionUid : String
  inviteeUser : Nat
  accessLevel : AccessLevel
  signedEncryptionKey : Bytes
  uid : String
  version : Nat
  deriving DecidableEq, Repr

/-- `CollectionInvitationSerializer.create`: fetches the requesting
member via `collection.members.get(user=request.user)` and creates the
invitation row with `fromMember=member`.  No stoken is allocated. -/
def invitationCreate (req : InviteReq) (s : State) : Except Err State :=
  match s.collections.find? (fun c => c.uid == req.collectionUid) with
  | none => .error .doesNotExist
  | some coll =>
      match objGet (s.members.filter (fun m =>
          m.collectionId == coll.id && m.user == req.requestUser)) with
      | .error e => .error e
      | .ok member =>
          let inv : Invitation := ⟨s.nextId, req.uid, coll.id, member.id,
            req.inviteeUser, req.accessLevel, req.signedEncryptionKey, req.version⟩
          .ok { s with nextId := s.nextId + 1, invitations := s.invitations ++ [inv] }

/-- `InvitationAcceptSerializer.create`: atomically creates a membership
copying collection, user and access level from the invitation, with the
caller-supplied encryption key and a fresh stoken, then deletes the
invitation row. -/
def invitationAccept (invId : Nat) (encryptionKey : Bytes) (s : State) :
    Except Err State :=
  match s.invitations.find? (fun i => i.id == invId) with
  | none => .error .doesNotExist
  | some invitation =>
      match memberCreate s invitation.collectionId invitation.user
          invitation.accessLevel encryptionKey with
      | .error e => .error e
      | .ok (s1, _) =>
          .ok { s1 with invitations := s1.invitations.filter (fun i => !(i.id == invId)) }

/-- The mutating operations of the engine. -/
inductive MutOp where
  | itemUpsertOp (validateEtag : Bool) (req : ItemUpsertReq)
  | collCreateOp (req : CollCreateReq)
  | collUpdateOp (uid : String) (etag : Option String) (rd : RevData)
  | memberAccessOp (memberId : Nat) (newLevel : AccessLevel)
  | inviteOp (req : InviteReq)
  | acceptOp (invId : Nat) (encryptionKey : Bytes)
  deriving DecidableEq, Repr

/-- Dispatch of one operation. -/
def stepOp : MutOp → State → Except Err State
  | .itemUpsertOp ve req, s => itemUpsert ve req s
  | .collCreateOp req, s => collectionCreate req s
  | .collUpdateOp uid etag rd, s => collectionUpdate uid etag rd s
  | .memberAccessOp mid lvl, s => collectionMemberUpdate mid lvl s
  | .inviteOp req, s => invitationCreate req s
  | .acceptOp invId key, s => invitationAccept invId key s

/-- `transaction.atomic`: a failed operation rolls back, leaving the
state untouched. -/
def applyOp (op : MutOp) (s : State) : State :=
  match stepOp op s with
  | .ok s1 => s1
  | .error _ => s

/-- Running a sequence of operations, each atomic. -/
def runOps (ops : List MutOp) (s : State) : State :=
  ops.foldl (fun s op => applyOp op s) s

/-- Number of revisions of the given item that are marked current. -/
def cnt (revs : List Revision) (i : Nat) : Nat :=
  (revs.filter (fun r => r.itemId == i && r.current == some true)).length

/-- All stokens attached to entities of the state (revisions and
memberships carry them). -/
def stokenList (s : State) : List Nat :=
  s.revisions.map (fun r => r.stoken) ++ s.members.map (fun m => m.stoken)

/-- Stokens present after a mutation that were not present before:
the tokens the mutation allocated and attached. -/
def newStokens (s s1 : State) : List Nat :=
  (stokenList s1).filter (fun t => !((stokenList s).contains t))

/-- Structural well-formedness of a state: primary keys are below the
allocator and unique where the serializers rely on it, foreign keys
point below the allocator, item uids are unique among non-null ones,
revisions belong to existing items, and stokens are below the stoken
allocator and pairwise distinct. -/
structure PreInv (s : State) : Prop where
  itemIdsNodup : (s.items.map (fun it => it.id)).Nodup
  itemIdsLt : ∀ it ∈ s.items, it.id < s.nextId
  itemUidsNodup : (s.items.filterMap (fun it => it.uid)).Nodup
  revIdsNodup : (s.revisions.map (fun r => r.id)).Nodup
  revIdsLt : ∀ r ∈ s.revisions, r.id < s.nextId
  revItemMem : ∀ r ∈ s.revisions, ∃ it ∈ s.items, it.id = r.itemId
  memberIdsNodup : (s.members.map (fun m => m.id)).Nodup
  memberIdsLt : ∀ m ∈ s.members, m.id < s.nextId
  memberCollLt : ∀ m ∈ s.members, m.collectionId < s.nextId
  invIdsLt : ∀ i ∈ s.invitations, i.id < s.nextId
  invCollLt : ∀ i ∈ s.invitations, i.collectionId < s.nextId
  collIdsLt : ∀ c ∈ s.collections, c.id < s.nextId
  stokensLt : ∀ t ∈ stokenList s, t < s.stokenCounter
  stokensNodup : (stokenList s).Nodup

/-- Full invariant: well-formedness plus the single-current property
for every existing item. -/
structure DbInv (s : State) extends PreInv s : Prop where
  singleCurrent : ∀ it ∈ s.items, cnt s.revisions it.id = 1

/-- The empty database. -/
def initialState : State := ⟨0, 0, [], [], [], [], [], [], []⟩

/-- Resolvability of a list of chunk references against a store holding
the given multiset of uids: an inline reference always stores (adding
its uid), a uid-only reference requires exactly one present chunk with
that uid. -/
def refsResolve (uids : List String) : List ChunkRef → Bool
  | [] => true
  | (u, some _) :: rest => refsResolve (uids ++ [u]) rest
  | (u, none) :: rest =>
      ((uids.filter (fun x => x == u)).length == 1) && refsResolve uids rest

/-- The etag gate of the spec: an upsert of `uid` with client etag
`etag` is admissible iff the item exists and `etag` equals the uid of
its current revision, or the item does not exist and `etag` is the
null sentinel. -/
def etagGate (s : State) (uid : String) (etag : Option String) : Bool :=
  match s.items.filter (fun it => it.uid == some uid) with
  | [] => etag == none
  | inst :: _ => etag == itemEtag s inst

/-- The `cur_etag` value `CollectionItemSerializer.create` compares
against (`None` when the row was just created). -/
def curEtagOf (s : State) (uid : String) : Option String :=
  match s.items.filter (fun it => it.uid == some uid) with
  | [] => none
  | inst :: _ => itemEtag s inst

/-- The base64url alphabet used by `base64.urlsafe_b64encode`. -/
def b64Alphabet : List Char :=
  ['A', 'B', 'C', 'D', 'E', 'F', 'G', 'H', 'I', 'J', 'K', 'L', 'M',
   'N', 'O', 'P', 'Q', 'R', 'S', 'T', 'U', 'V', 'W', 'X', 'Y', 'Z',
   'a', 'b', 'c', 'd', 'e', 'f', 'g', 'h', 'i', 'j', 'k', 'l', 'm',
   'n', 'o', 'p', 'q', 'r', 's', 't', 'u', 'v', 'w', 'x', 'y', 'z',
   '0', '1', '2', '3', '4', '5', '6', '7', '8', '9', '-', '_']

/-- Character of a sextet value. -/
def b64Char (n : Nat) : Char := b64Alphabet.getD n 'A'

/-- Helper scanning the alphabet for the position of a character. -/
def b64IndexAux (c : Char) : List Char → Nat → Option Nat
  | [], _ => none
  | a :: rest, k => if a == c then some k else b64IndexAux c rest (k + 1)

/-- Sextet value of an alphabet character. -/
def b64Index (c : Char) : Option Nat := b64IndexAux c b64Alphabet 0

/-- Padded base64url encoding of a byte string, three bytes per group,
as produced by `base64.urlsafe_b64encode`. -/
def b64EncodeGroups : List Nat → List Char
  | b0 :: b1 :: b2 :: rest =>
      let n := b0 * 65536 + b1 * 256 + b2
      b64Char (n / 262144 % 64) :: b64Char (n / 4096 % 64) ::
        b64Char (n / 64 % 64) :: b64Char (n % 64) :: b64EncodeGroups rest
  | [b0, b1] =>
      let n := b0 * 1024 + b1 * 4
      [b64Char (n / 4096 % 64), b64Char (n / 64 % 64), b64Char (n % 64), '=']
  | [b0] =>
      let n := b0 * 16
      [b64Char (n / 64 % 64), b64Char (n % 64), '=', '=']
  | [] => []

/-- Python's `str.strip(c)` on one side: drop the given character from
the front. -/
def dropLead (c : Char) (l : List Char) : List Char :=
  l.dropWhile (fun x => x == c)

/-- Python's `str.strip(c)`: drop the given character from both ends. -/
def pyStrip (c : Char) (l : List Char) : List Char :=
  ((dropLead c l).reverse.dropWhile (fun x => x == c)).reverse

/-- The source's `b64encode(value)`:
`base64.urlsafe_b64encode(value).decode('ascii').strip('=')`. -/
def b64encode (v : List Nat) : List Char := pyStrip '=' (b64EncodeGroups v)

/-- Decoding of padded base64url text, group by group, as performed by
`base64.urlsafe_b64decode`; `none` models `binascii.Error`. -/
def b64DecodeGroups : List Char → Option (List Nat)
  | c0 :: c1 :: c2 :: c3 :: rest =>
      if c2 = '=' then
        if c3 = '=' ∧ rest = [] then
          match b64Index c0, b64Index c1 with
          | some n0, some n1 => some [n0 * 4 + n1 / 16]
          | _, _ => none
        else none
      else if c3 = '=' then
        if rest = [] then
          match b64Index c0, b64Index c1, b64Index c2 with
          | some n0, some n1, some n2 =>
              some [n0 * 4 + n1 / 16, n1 % 16 * 16 + n2 / 4]
          | _, _, _ => none
        else none
      else
        match b64Index c0, b64Index c1, b64Index c2, b64Index c3,
            b64DecodeGroups rest with
        | some n0, some n1, some n2, some n3, some bs =>
            some ((n0 * 4 + n1 / 16) :: (n1 % 16 * 16 + n2 / 4) ::
              (n2 % 4 * 64 + n3) :: bs)
        | _, _, _, _, _ => none
  | [] => some []
  | _ => none

/-- The source's `b64decode(data)`: re-pad with `'='` to a multiple of
four characters, then `base64.urlsafe_b64decode`. -/
def b64decode (data : List Char) : Option (List Nat) :=
  b64DecodeGroups (data ++ List.replicate ((4 - data.length % 4) % 4) '=')

/-- Concrete revision data with inline chunks, used to exercise the
operations on explicit inputs. -/
def rdW : RevData := ⟨[("cA", some [1, 2]), ("cB", some [3])], [9], "r0", false⟩

/-- Concrete revision data referencing chunk `cA` by uid alone. -/
def rdW2 : RevData := ⟨[("cA", none)], [4], "r1", false⟩

/-- Concrete revision data referencing chunk `cB` by uid alone. -/
def rdW3 : RevData := ⟨[("cB", none)], [5], "r2", false⟩

/-- Concrete collection-creation request with null client etag. -/
def reqCollW : CollCreateReq := ⟨"coll1", 1, 5, [7], none, rdW⟩

/-- Concrete collection-creation request with a non-null client etag. -/
def reqCollBad : CollCreateReq := ⟨"coll2", 1, 5, [7], some "x", rdW⟩

/-- Concrete first upsert of item `it1`. -/
def reqItemW : ItemUpsertReq := ⟨"it1", 2, [8], some 0, none, rdW2⟩

/-- Concrete second upsert of item `it1`, carrying the current etag. -/
def reqItemW2 : ItemUpsertReq := ⟨"it1", 3, [9], some 0, some "r1", rdW3⟩

/-- Concrete upsert of a fresh item with inline chunks. -/
def reqItemC2 : ItemUpsertReq := ⟨"itX", 1, [1], none, none, rdW⟩

/-- State after creating `coll1` in the empty database. -/
def sW1 : State := applyOp (.collCreateOp reqCollW) initialState

/-- State after additionally upserting `it1`. -/
def sW2 : State := applyOp (.itemUpsertOp true reqItemW) sW1

/-- Concrete self-invitation: the requesting user of `coll1` invites
their own user. -/
def reqInviteSelf : InviteReq := ⟨5, "coll1", 5, .readWrite, [2], "inv1", 1⟩

/-- Concrete invitation of user 6 to `coll1`. -/
def reqInviteB : InviteReq := ⟨5, "coll1", 6, .readWrite, [2], "inv1", 1⟩

/-- State after inviting user 6 to `coll1`. -/
def sW3 : State := applyOp (.inviteOp reqInviteB) sW1

/-- The invitation row created by `reqInviteB` in `sW3`. -/
def invW : Invitation := ⟨6, "inv1", 0, 5, 6, .readWrite, [2], 1⟩

/-- A concrete item record used to exercise the revision engine. -/
def itemW : Item := ⟨0, some "x", 0, none, none⟩

/-- The item row of `it1` as present in `sW2`. -/
def instW : Item := ⟨6, some "it1", 2, some [8], some 0⟩

/-- Sequence of concrete operations used to exercise the invariant. -/
def opsW : List MutOp :=
  [.collCreateOp reqCollW, .itemUpsertOp true reqItemW, .itemUpsertOp true reqItemW2]

/-! ### Lemmas about the base64url boundary encoding -/

theorem b64Index_b64Char : ∀ m, m < 64 → b64Index (b64Char m) = some m := by decide

theorem b64Char_ne_pad (n : Nat) : b64Char n ≠ '=' := by
  rcases Nat.lt_or_ge n 64 with h | h
  · exact (show ∀ m, m < 64 → b64Char m ≠ '=' by decide) n h
  · show b64Alphabet.getD n 'A' ≠ '='
    rw [List.getD_eq_default]
    · decide
    · have : b64Alphabet.length = 64 := by decide
      omega

theorem decode_encode : ∀ (v : List Nat), (∀ b ∈ v, b < 256) →
    b64DecodeGroups (b64EncodeGroups v) = some v
  | [], _ => rfl
  | [b0], h => by
      have hb0 : b0 < 256 := h b0 (by simp)
      simp only [b64EncodeGroups, b64DecodeGroups]
      simp only [and_self, if_true]
      rw [b64Index_b64Char _ (Nat.mod_lt _ (by omega)),
          b64Index_b64Char _ (Nat.mod_lt _ (by omega))]
      simp only [Option.some.injEq, List.cons.injEq, and_true]
      omega
  | [b0, b1], h => by
      have hb0 : b0 < 256 := h b0 (by simp)
      have hb1 : b1 < 256 := h b1 (by simp)
      simp only [b64EncodeGroups, b64DecodeGroups]
      rw [if_neg (b64Char_ne_pad _)]
      simp only [and_self, if_true]
      rw [b64Index_b64Char _ (Nat.mod_lt _ (by omega)),
          b64Index_b64Char _ (Nat.mod_lt _ (by omega)),
          b64Index_b64Char _ (Nat.mod_lt _ (by omega))]
      simp only [Option.some.injEq, List.cons.injEq, and_true]
      constructor
      · omega
      · omega
  | b0 :: b1 :: b2 :: rest, h => by
      have hb0 : b0 < 256 := h b0 (by simp)
      have hb1 : b1 < 256 := h b1 (by simp)
      have hb2 : b2 < 256 := h b2 (by simp)
      have ih := decode_encode rest (fun b hb => h b (by simp [hb]))
      simp only [b64EncodeGroups, b64DecodeGroups]
      rw [if_neg (b64Char_ne_pad _), if_neg (b64Char_ne_pad _)]
      rw [b64Index_b64Char _ (Nat.mod_lt _ (by omega)),
          b64Index_b64Char _ (Nat.mod_lt _ (by omega)),
          b64Index_b64Char _ (Nat.mod_lt _ (by omega)),
          b64Index_b64Char _ (Nat.mod_lt _ (by omega)), ih]
      simp only [Option.some.injEq, List.cons.injEq, and_true]
      refine ⟨by omega, by omega, by omega⟩

theorem encode_shape : ∀ (v : List Nat), ∃ body,
    b64EncodeGroups v = body ++ List.replicate ((3 - v.length % 3) % 3) '=' ∧
    (∀ c ∈ body, c ≠ '=') ∧
    body.length % 4 = (4 - (3 - v.length % 3) % 3) % 4
  | [] => ⟨[], by simp [b64EncodeGroups]⟩
  | [b0] => by
      refine ⟨[b64Char (b0 * 16 / 64 % 64), b64Char (b0 * 16 % 64)], ?_, ?_, ?_⟩
      · simp [b64EncodeGroups, List.replicate]
      · intro c hc
        simp only [List.mem_cons, List.not_mem_nil, or_false] at hc
        rcases hc with rfl | rfl
        · exact b64Char_ne_pad _
        · exact b64Char_ne_pad _
      · simp only [List.length_cons, List.length_nil]
  | [b0, b1] => by
      refine ⟨[b64Char ((b0 * 1024 + b1 * 4) / 4096 % 64),
               b64Char ((b0 * 1024 + b1 * 4) / 64 % 64),
               b64Char ((b0 * 1024 + b1 * 4) % 64)], ?_, ?_, ?_⟩
      · simp [b64EncodeGroups, List.replicate]
      · intro c hc
        simp only [List.mem_cons, List.not_mem_nil, or_false] at hc
        rcases hc with rfl | rfl | rfl
        · exact b64Char_ne_pad _
        · exact b64Char_ne_pad _
        · exact b64Char_ne_pad _
      · simp only [List.length_cons, List.length_nil]
  | b0 :: b1 :: b2 :: rest => by
      obtain ⟨body, hb, hne, hlen⟩ := encode_shape rest
      have hmod : (3 + rest.length) % 3 = rest.length % 3 := by omega
      refine ⟨b64Char ((b0 * 65536 + b1 * 256 + b2) / 262144 % 64) ::
              b64Char ((b0 * 65536 + b1 * 256 + b2) / 4096 % 64) ::
              b64Char ((b0 * 65536 + b1 * 256 + b2) / 64 % 64) ::
              b64Char ((b0 * 65536 + b1 * 256 + b2) % 64) :: body, ?_, ?_, ?_⟩
      · simp only [b64EncodeGroups, List.length_cons, hb]
        have : (3 - (rest.length + 1 + 1 + 1) % 3) % 3 = (3 - rest.length % 3) % 3 := by
          omega
        rw [this]
        simp
      · intro c hc
        simp only [List.mem_cons] at hc
        rcases hc with rfl | rfl | rfl | rfl | h
        · exact b64Char_ne_pad _
        · exact b64Char_ne_pad _
        · exact b64Char_ne_pad _
        · exact b64Char_ne_pad _
        · exact hne c h
      · simp only [List.length_cons]
        have : (3 - (rest.length + 1 + 1 + 1) % 3) % 3 = (3 - rest.length % 3) % 3 := by
          omega
        rw [this]
        omega

theorem dropWhile_replicate_append (p : Char → Bool) (k : Nat) (c : Char)
    (hc : p c = true) (l : List Char) :
    List.dropWhile p (List.replicate k c ++ l) = List.dropWhile p l := by
  induction k with
  | zero => simp
  | succ n ih => simp [List.replicate_succ, List.dropWhile_cons, hc, ih]

theorem dropWhile_eq_self_of_all (p : Char → Bool) (l : List Char)
    (h : ∀ x ∈ l, p x = false) : List.dropWhile p l = l := by
  cases l with
  | nil => rfl
  | cons a t => simp [List.dropWhile_cons, h a (by simp)]

theorem pyStrip_body (body : List Char) (k : Nat)
    (hne : ∀ c ∈ body, c ≠ '=') :
    pyStrip '=' (body ++ List.replicate k '=') = body := by
  cases body with
  | nil =>
      simp only [List.nil_append, pyStrip, dropLead]
      rw [show List.replicate k '=' = List.replicate k '=' ++ [] by simp,
          dropWhile_replicate_append _ _ _ (by decide)]
      simp
  | cons a t =>
      have ha : (a == '=') = false := by
        rw [beq_eq_false_iff_ne]
        exact hne a (by simp)
      simp only [pyStrip, dropLead, List.cons_append, List.dropWhile_cons, ha]
      simp only [Bool.false_eq_true, if_false]
      rw [← List.cons_append, List.reverse_append, List.reverse_replicate]
      rw [dropWhile_replicate_append _ _ _ (by decide)]
      rw [dropWhile_eq_self_of_all]
      · simp
      · intro x hx
        rw [beq_eq_false_iff_ne]
        exact hne x (by rw [← List.mem_reverse]; exact hx)

/-! ### Effects of the revision engine -/

theorem objGet_ok {α : Type} (l : List α) (c : α) (h : objGet l = .ok c) : l = [c] := by
  match l with
  | [x] =>
      simp only [objGet, Except.ok.injEq] at h
      rw [h]
  | [] => simp [objGet] at h
  | a :: b :: t => simp [objGet] at h

theorem chunkGet_ok (s : State) (u : String) (c : Chunk) (h : chunkGet s u = .ok c) :
    s.chunks.filter (fun x => x.uid == u) = [c] ∧ c.uid = u := by
  have hl := objGet_ok _ _ h
  refine ⟨hl, ?_⟩
  have hmem : c ∈ s.chunks.filter (fun x => x.uid == u) := by rw [hl]; simp
  have := List.of_mem_filter hmem
  simpa using this

theorem storeChunk_fst (itemId : Nat) (s : State) (u : String) (content : Bytes) :
    (storeChunk itemId s u content).1 =
      { s with nextId := s.nextId + 1,
               chunks := s.chunks ++ [⟨s.nextId, u, itemId, content⟩] } := rfl

theorem processChunks_ok (itemId : Nat) (refs : List ChunkRef) :
    ∀ (s s' : State) (objs : List Chunk),
    processChunks itemId s refs = .ok (s', objs) →
    s'.items = s.items ∧ s'.revisions = s.revisions ∧ s'.revChunks = s.revChunks ∧
    s'.members = s.members ∧ s'.collections = s.collections ∧
    s'.invitations = s.invitations ∧ s'.stokenCounter = s.stokenCounter ∧
    s.nextId ≤ s'.nextId ∧ (∃ nc, s'.chunks = s.chunks ++ nc) ∧
    objs.map (fun c => c.uid) = refs.map (fun r => r.1) := by
  induction refs with
  | nil =>
      intro s s' objs h
      simp only [processChunks, Except.ok.injEq, Prod.mk.injEq] at h
      obtain ⟨h1, h2⟩ := h
      rw [← h1, ← h2]
      refine ⟨rfl, rfl, rfl, rfl, rfl, rfl, rfl, Nat.le_refl _, ⟨[], by simp⟩, by simp⟩
  | cons hd tl ih =>
      intro s s' objs h
      obtain ⟨u, oc⟩ := hd
      cases oc with
      | some content =>
          simp only [processChunks] at h
          cases hrec : processChunks itemId (storeChunk itemId s u content).1 tl with
          | ok p =>
              obtain ⟨s2, objs2⟩ := p
              rw [hrec] at h
              simp only [Except.ok.injEq, Prod.mk.injEq] at h
              obtain ⟨h1, h2⟩ := h
              subst h1
              subst h2
              obtain ⟨e1, e2, e3, e4, e5, e6, e7, e8, ⟨nc, e9⟩, e10⟩ := ih _ _ _ hrec
              rw [storeChunk_fst] at e1 e2 e3 e4 e5 e6 e7 e8 e9
              refine ⟨e1, e2, e3, e4, e5, e6, e7, by simp at e8 ⊢; omega, ?_, ?_⟩
              · refine ⟨⟨s.nextId, u, itemId, content⟩ :: nc, ?_⟩
                simp at e9
                simp [e9]
              · simp [e10, storeChunk]
          | error e =>
              rw [hrec] at h
              exact absurd h (by simp)
      | none =>
          simp only [processChunks] at h
          cases hget : chunkGet s u with
          | ok c =>
              rw [hget] at h
              cases hrec : processChunks itemId s tl with
              | ok p =>
                  obtain ⟨s2, objs2⟩ := p
                  rw [hrec] at h
                  simp only [Except.ok.injEq, Prod.mk.injEq] at h
                  obtain ⟨h1, h2⟩ := h
                  subst h1
                  subst h2
                  obtain ⟨e1, e2, e3, e4, e5, e6, e7, e8, ⟨nc, e9⟩, e10⟩ := ih _ _ _ hrec
                  obtain ⟨hfl, hcu⟩ := chunkGet_ok s u c hget
                  exact ⟨e1, e2, e3, e4, e5, e6, e7, e8, ⟨nc, e9⟩, by simp [e10, hcu]⟩
              | error e =>
                  rw [hrec] at h
                  exact absurd h (by simp)
          | error e =>
              rw [hget] at h
              exact absurd h (by simp)

theorem processChunks_isOk (itemId : Nat) (refs : List ChunkRef) : ∀ (s : State),
    (processChunks itemId s refs).isOk =
      refsResolve (s.chunks.map (fun c => c.uid)) refs := by
  induction refs with
  | nil => intro s; rfl
  | cons hd tl ih =>
      intro s
      obtain ⟨u, oc⟩ := hd
      cases oc with
      | some content =>
          simp only [processChunks, refsResolve]
          have h1 := ih (storeChunk itemId s u content).1
          have h2 : (storeChunk itemId s u content).1.chunks.map (fun c => c.uid)
              = s.chunks.map (fun c => c.uid) ++ [u] := by
            rw [storeChunk_fst]
            simp
          rw [h2] at h1
          rw [← h1]
          cases hrec : processChunks itemId (storeChunk itemId s u content).1 tl with
          | ok p =>
              obtain ⟨s2, objs2⟩ := p
              rfl
          | error e => rfl
      | none =>
          simp only [processChunks, refsResolve]
          have hcount : (List.filter (fun x => x == u) (s.chunks.map (fun c => c.uid))).length
              = (s.chunks.filter (fun c => c.uid == u)).length := by
            rw [List.filter_map, List.length_map]
            rfl
          rcases hfl : s.chunks.filter (fun c => c.uid == u) with _ | ⟨c, _ | ⟨c2, t⟩⟩
          · rw [show chunkGet s u = .error .doesNotExist by rw [chunkGet, hfl]; rfl]
            rw [hcount, hfl]
            simp [Except.isOk, Except.toBool]
          · rw [show chunkGet s u = .ok c by rw [chunkGet, hfl]; rfl]
            rw [hcount, hfl]
            rw [← ih s]
            cases hrec : processChunks itemId s tl with
            | ok p =>
                obtain ⟨s2, objs2⟩ := p
                simp only [Except.isOk]
                rfl
            | error e => simp [Except.isOk, Except.toBool]
          · rw [show chunkGet s u = .error .multipleObjectsReturned by rw [chunkGet, hfl]; rfl]
            rw [hcount, hfl]
            simp [Except.isOk, Except.toBool]

theorem processRevisions_ok (item : Item) (rd : RevData) (s s' : State) (rid : Nat)
    (h : processRevisionsForItem item rd s = .ok (s', rid)) :
    ∃ (rev : Revision) (objs : List Chunk),
      rev.id = rid ∧ rev.uid = rd.uid ∧ rev.stoken = s.stokenCounter ∧ rev.meta = rd.meta ∧
      rev.deleted = rd.deleted ∧ rev.current = some true ∧ rev.itemId = item.id ∧
      s'.revisions = s.revisions ++ [rev] ∧
      s'.items = s.items ∧ s'.members = s.members ∧ s'.collections = s.collections ∧
      s'.invitations = s.invitations ∧
      (∃ nc, s'.chunks = s.chunks ++ nc) ∧
      s'.revChunks = s.revChunks ++ objs.map (fun c => (rev.id, c.id)) ∧
      objs.map (fun c => c.uid) = rd.chunksRelation.map (fun r => r.1) ∧
      s.nextId ≤ rev.id ∧ s'.nextId = rid + 1 ∧ s'.stokenCounter = s.stokenCounter + 1 := by
  unfold processRevisionsForItem at h
  cases heq : processChunks item.id s rd.chunksRelation with
  | error e =>
      rw [heq] at h
      exact absurd h (by simp)
  | ok p =>
      obtain ⟨s1, objs⟩ := p
      rw [heq] at h
      simp only [Except.ok.injEq, Prod.mk.injEq] at h
      obtain ⟨h1, h2⟩ := h
      obtain ⟨e1, e2, e3, e4, e5, e6, e7, e8, ⟨nc, e9⟩, e10⟩ :=
        processChunks_ok item.id rd.chunksRelation s s1 objs heq
      subst h1
      refine ⟨⟨s1.nextId, rd.uid, s1.stokenCounter, rd.meta, rd.deleted, some true, item.id⟩,
        objs, ?_⟩
      refine ⟨h2, rfl, e7, rfl, rfl, rfl, rfl, by simp [e2], by simp [e1], by simp [e4],
        by simp [e5], by simp [e6], ⟨nc, by simp [e9]⟩, by simp [e3], e10, e8, by simp [h2],
        by simp [e7]⟩

theorem processRevisions_isOk (item : Item) (rd : RevData) (s : State) :
    (processRevisionsForItem item rd s).isOk =
      refsResolve (s.chunks.map (fun c => c.uid)) rd.chunksRelation := by
  rw [← processChunks_isOk item.id rd.chunksRelation s]
  unfold processRevisionsForItem
  cases h : processChunks item.id s rd.chunksRelation with
  | ok p =>
      obtain ⟨s1, objs⟩ := p
      rfl
  | error e => rfl

/-! ### List bookkeeping helpers -/

theorem map_id_of_eq {α : Type} (f : α → α) (l : List α) (h : ∀ a ∈ l, f a = a) :
    l.map f = l := by
  induction l with
  | nil => rfl
  | cons a t ih =>
      simp only [List.map_cons, h a (by simp)]
      rw [ih (fun b hb => h b (by simp [hb]))]

theorem nodup_append_singleton {α : Type} {l : List α} {x : α} (hnd : l.Nodup) (hx : x ∉ l) :
    (l ++ [x]).Nodup := by
  rw [List.nodup_append]
  exact ⟨hnd, List.nodup_singleton x, by simp [List.disjoint_singleton, hx]⟩

theorem nodup_insert_middle {α : Type} (A B : List α) (c : α)
    (hnd : (A ++ B).Nodup) (hc : c ∉ A ++ B) : (A ++ c :: B).Nodup := by
  rw [List.nodup_middle]
  exact List.nodup_cons.mpr ⟨hc, hnd⟩

theorem nodup_decomp {α : Type} (f : α → Nat) (l : List α) (x : α)
    (hmem : x ∈ l) (hnd : (l.map f).Nodup) :
    ∃ l1 l2, l = l1 ++ x :: l2 ∧ (∀ y ∈ l1, f y ≠ f x) ∧ (∀ y ∈ l2, f y ≠ f x) := by
  obtain ⟨l1, l2, rfl⟩ := List.append_of_mem hmem
  rw [List.map_append, List.map_cons, List.nodup_middle] at hnd
  have hx := (List.nodup_cons.mp hnd).1
  refine ⟨l1, l2, rfl, ?_, ?_⟩
  · intro y hy heq
    exact hx (List.mem_append_left _ (heq ▸ List.mem_map_of_mem f hy))
  · intro y hy heq
    exact hx (List.mem_append_right _ (heq ▸ List.mem_map_of_mem f hy))

/-! ### Counting current revisions -/

theorem cnt_append (l1 l2 : List Revision) (i : Nat) :
    cnt (l1 ++ l2) i = cnt l1 i + cnt l2 i := by
  simp [cnt, List.filter_append]

theorem cnt_cons (r : Revision) (l : List Revision) (i : Nat) :
    cnt (r :: l) i =
      (if r.itemId = i ∧ r.current = some true then 1 else 0) + cnt l i := by
  by_cases h1 : r.itemId = i
  · by_cases h2 : r.current = some true
    · simp [cnt, List.filter_cons, h1, h2]
      omega
    · simp [cnt, List.filter_cons, h1, h2]
  · simp [cnt, List.filter_cons, h1]

theorem cnt_nil (i : Nat) : cnt [] i = 0 := rfl

theorem cnt_eq_zero (revs : List Revision) (i : Nat) (h : ∀ r ∈ revs, r.itemId ≠ i) :
    cnt revs i = 0 := by
  induction revs with
  | nil => rfl
  | cons r t ih =>
      rw [cnt_cons]
      rw [ih (fun x hx => h x (by simp [hx]))]
      simp [h r (by simp)]

theorem firstCurrent_some (s : State) (i : Nat) (cur : Revision)
    (h : firstCurrent s i = some cur) :
    cur ∈ s.revisions ∧ cur.itemId = i ∧ cur.current = some true := by
  unfold firstCurrent at h
  cases hfl : s.revisions.filter (fun r => r.itemId == i && r.current == some true) with
  | nil => rw [hfl] at h; cases h
  | cons a t =>
      rw [hfl] at h
      simp only [List.head?_cons, Option.some.injEq] at h
      have hmem : a ∈ s.revisions.filter
          (fun r => r.itemId == i && r.current == some true) := by
        rw [hfl]; simp
      rw [h] at hmem
      have h1 := List.mem_of_mem_filter hmem
      have h2 := List.of_mem_filter hmem
      simp only [Bool.and_eq_true, beq_iff_eq] at h2
      exact ⟨h1, h2.1, h2.2⟩

theorem firstCurrent_of_cnt_one (s : State) (i : Nat) (h : cnt s.revisions i = 1) :
    ∃ cur, firstCurrent s i = some cur := by
  unfold cnt at h
  unfold firstCurrent
  cases hfl : s.revisions.filter (fun r => r.itemId == i && r.current == some true) with
  | nil => rw [hfl] at h; cases h
  | cons a t => exact ⟨a, by simp⟩

/-! ### Demotion of the current revision -/

theorem demoteRev_revisions (s : State) (cur : Revision)
    (hnd : (s.revisions.map (fun r => r.id)).Nodup) (hmem : cur ∈ s.revisions) :
    ∃ l1 l2, s.revisions = l1 ++ cur :: l2 ∧
      (demoteRev s cur.id).revisions = l1 ++ { cur with current := none } :: l2 ∧
      (∀ y ∈ l1, y.id ≠ cur.id) ∧ (∀ y ∈ l2, y.id ≠ cur.id) := by
  obtain ⟨l1, l2, hl, h1, h2⟩ := nodup_decomp (fun r => r.id) s.revisions cur hmem hnd
  refine ⟨l1, l2, hl, ?_, h1, h2⟩
  simp only [demoteRev, hl, List.map_append, List.map_cons]
  have e1 : l1.map (fun r => if r.id == cur.id then { r with current := none } else r) = l1 :=
    map_id_of_eq _ _ (fun a ha => by simp [h1 a ha])
  have e2 : l2.map (fun r => if r.id == cur.id then { r with current := none } else r) = l2 :=
    map_id_of_eq _ _ (fun a ha => by simp [h2 a ha])
  rw [e1, e2]
  simp

/-! ### Invariant preservation by the revision engine -/

theorem inv_fresh_process (s : State) (inst : Item) (rd : RevData) (s' : State) (rid : Nat)
    (hpre : PreInv s) (hmem : inst ∈ s.items) (hzero : cnt s.revisions inst.id = 0)
    (hone : ∀ it ∈ s.items, it.id ≠ inst.id → cnt s.revisions it.id = 1)
    (hok : processRevisionsForItem inst rd s = .ok (s', rid)) : DbInv s' := by
  obtain ⟨rev, objs, f1, f2, f3, f4, f5, f6, f7, f8, f9, f10, f11, f12, f13, f14, f15,
    f16, f17, f18⟩ := processRevisions_ok inst rd s s' rid hok
  have hstok : stokenList s' = s.revisions.map (fun r => r.stoken) ++ rev.stoken ::
      s.members.map (fun m => m.stoken) := by
    simp [stokenList, f8, f10]
  have hpreNew : PreInv s' := by
    refine PreInv.mk ?_ ?_ ?_ ?_ ?_ ?_ ?_ ?_ ?_ ?_ ?_ ?_ ?_ ?_
    · rw [f9]; exact hpre.itemIdsNodup
    · rw [f9]; intro it hit; have := hpre.itemIdsLt it hit; omega
    · rw [f9]; exact hpre.itemUidsNodup
    · rw [f8]
      simp only [List.map_append, List.map_cons, List.map_nil]
      apply nodup_append_singleton hpre.revIdsNodup
      intro hc
      obtain ⟨r0, hr0, hr0id⟩ := List.mem_map.mp hc
      have := hpre.revIdsLt r0 hr0
      omega
    · rw [f8]
      intro r hr
      rcases List.mem_append.mp hr with h | h
      · have := hpre.revIdsLt r h; omega
      · simp only [List.mem_singleton] at h
        subst h
        omega
    · rw [f8, f9]
      intro r hr
      rcases List.mem_append.mp hr with h | h
      · exact hpre.revItemMem r h
      · simp only [List.mem_singleton] at h
        subst h
        exact ⟨inst, hmem, f7.symm⟩
    · rw [f10]; exact hpre.memberIdsNodup
    · rw [f10]; intro m hm; have := hpre.memberIdsLt m hm; omega
    · rw [f10]; intro m hm; have := hpre.memberCollLt m hm; omega
    · rw [f12]; intro i hi; have := hpre.invIdsLt i hi; omega
    · rw [f12]; intro i hi; have := hpre.invCollLt i hi; omega
    · rw [f11]; intro c hc; have := hpre.collIdsLt c hc; omega
    · rw [hstok]
      intro t ht
      rw [f18]
      rcases List.mem_append.mp ht with h | h
      · have : t ∈ stokenList s := List.mem_append_left _ h
        have := hpre.stokensLt t this
        omega
      · rcases List.mem_cons.mp h with h | h
        · subst h
          rw [f3]
          omega
        · have : t ∈ stokenList s := List.mem_append_right _ h
          have := hpre.stokensLt t this
          omega
    · rw [hstok]
      apply nodup_insert_middle
      · exact hpre.stokensNodup
      · intro hc
        have := hpre.stokensLt rev.stoken hc
        rw [f3] at this
        omega
  refine DbInv.mk hpreNew ?_
  rw [f9]
  intro it hit
  rw [f8, cnt_append]
  by_cases hid : it.id = inst.id
  · have h1 : cnt [rev] it.id = 1 := by
      rw [show ([rev] : List Revision) = rev :: [] from rfl, cnt_cons, cnt_nil]
      rw [if_pos ⟨by rw [f7, hid], f6⟩]
    rw [h1, hid, hzero]
  · have h0 : cnt [rev] it.id = 0 := by
      rw [show ([rev] : List Revision) = rev :: [] from rfl, cnt_cons, cnt_nil]
      rw [if_neg]
      rintro ⟨hc, -⟩
      rw [f7] at hc
      exact hid hc.symm
    rw [h0, hone it hit hid]

theorem inv_demote_process (s : State) (inst : Item) (cur : Revision) (rd : RevData)
    (s' : State) (rid : Nat)
    (hInv : DbInv s) (hinst : inst ∈ s.items)
    (hfc : firstCurrent s inst.id = some cur)
    (hok : processRevisionsForItem inst rd (demoteRev s cur.id) = .ok (s', rid)) :
    DbInv s' := by
  obtain ⟨hcmem, hcitem, hccur⟩ := firstCurrent_some s inst.id cur hfc
  obtain ⟨l1, l2, hl, hdl, hn1, hn2⟩ :=
    demoteRev_revisions s cur hInv.revIdsNodup hcmem
  have hids : (demoteRev s cur.id).revisions.map (fun r => r.id)
      = s.revisions.map (fun r => r.id) := by
    rw [hdl, hl]
    simp
  have hstoks : stokenList (demoteRev s cur.id) = stokenList s := by
    unfold stokenList
    rw [show (demoteRev s cur.id).members = s.members from rfl, hdl, hl]
    simp
  have horigcnt := hInv.singleCurrent inst hinst
  rw [hl, cnt_append, cnt_cons, if_pos ⟨hcitem, hccur⟩] at horigcnt
  have hpreNew : PreInv (demoteRev s cur.id) := by
    refine PreInv.mk ?_ ?_ ?_ ?_ ?_ ?_ ?_ ?_ ?_ ?_ ?_ ?_ ?_ ?_
    · exact hInv.itemIdsNodup
    · exact hInv.itemIdsLt
    · exact hInv.itemUidsNodup
    · rw [hids]; exact hInv.revIdsNodup
    · intro r hr
      rw [hdl] at hr
      rcases List.mem_append.mp hr with h | h
      · exact hInv.revIdsLt r (by rw [hl]; exact List.mem_append_left _ h)
      · rcases List.mem_cons.mp h with h | h
        · subst h
          exact hInv.revIdsLt cur hcmem
        · exact hInv.revIdsLt r (by rw [hl]; exact List.mem_append_right _ (by simp [h]))
    · intro r hr
      rw [hdl] at hr
      rcases List.mem_append.mp hr with h | h
      · exact hInv.revItemMem r (by rw [hl]; exact List.mem_append_left _ h)
      · rcases List.mem_cons.mp h with h | h
        · subst h
          exact hInv.revItemMem cur hcmem
        · exact hInv.revItemMem r (by rw [hl]; exact List.mem_append_right _ (by simp [h]))
    · exact hInv.memberIdsNodup
    · exact hInv.memberIdsLt
    · exact hInv.memberCollLt
    · exact hInv.invIdsLt
    · exact hInv.invCollLt
    · exact hInv.collIdsLt
    · rw [hstoks]; exact hInv.stokensLt
    · rw [hstoks]; exact hInv.stokensNodup
  have hzeroNew : cnt (demoteRev s cur.id).revisions inst.id = 0 := by
    rw [hdl, cnt_append, cnt_cons]
    rw [if_neg]
    · omega
    · rintro ⟨-, hc⟩
      cases hc
  have honeNew : ∀ it ∈ (demoteRev s cur.id).items, it.id ≠ inst.id →
      cnt (demoteRev s cur.id).revisions it.id = 1 := by
    intro it hit hne
    have horig := hInv.singleCurrent it hit
    rw [hl, cnt_append, cnt_cons] at horig
    rw [hdl, cnt_append, cnt_cons]
    rw [if_neg] at horig
    · rw [if_neg]
      · omega
      · rintro ⟨-, hc⟩
        cases hc
    · rintro ⟨hc, -⟩
      rw [hcitem] at hc
      exact hne hc.symm
  exact inv_fresh_process (demoteRev s cur.id) inst rd s' rid hpreNew hinst hzeroNew
    honeNew hok

/-! ### Invariant preservation by each operation -/

theorem filter_nil_uid (s : State) (u : String)
    (hfl : s.items.filter (fun it => it.uid == some u) = []) :
    u ∉ s.items.filterMap (fun it => it.uid) := by
  intro hc
  obtain ⟨it, hit, hu⟩ := List.mem_filterMap.mp hc
  have := List.filter_eq_nil_iff.mp hfl it hit
  simp [hu] at this

theorem inv_itemUpsert (ve : Bool) (req : ItemUpsertReq) (s s' : State)
    (hInv : DbInv s) (h : itemUpsert ve req s = .ok s') : DbInv s' := by
  unfold itemUpsert at h
  split at h
  · next hfl =>
      dsimp only at h
      split at h
      · cases h
      · cases hpr : processRevisionsForItem ⟨s.nextId, some req.uid, req.version,
            some req.encryptionKey, req.collectionId⟩ req.content
            { s with nextId := s.nextId + 1,
                     items := s.items ++ [⟨s.nextId, some req.uid, req.version,
                       some req.encryptionKey, req.collectionId⟩] } with
        | ok p =>
            obtain ⟨s2, rid⟩ := p
            rw [hpr] at h
            simp only [Except.ok.injEq] at h
            subst h
            apply inv_fresh_process _ _ _ _ _ ?pre ?mem ?zero ?one hpr
            case pre =>
              refine PreInv.mk ?_ ?_ ?_ ?_ ?_ ?_ ?_ ?_ ?_ ?_ ?_ ?_ ?_ ?_
              · simp only [List.map_append, List.map_cons, List.map_nil]
                apply nodup_append_singleton hInv.itemIdsNodup
                intro hc
                obtain ⟨it0, hit0, hid0⟩ := List.mem_map.mp hc
                have := hInv.itemIdsLt it0 hit0
                omega
              · intro it hit
                rcases List.mem_append.mp hit with hx | hx
                · have := hInv.itemIdsLt it hx
                  simp only [] at *
                  omega
                · simp only [List.mem_singleton] at hx
                  subst hx
                  simp
              · simp only [List.filterMap_append]
                have he : List.filterMap (fun it => it.uid)
                    [(⟨s.nextId, some req.uid, req.version, some req.encryptionKey,
                      req.collectionId⟩ : Item)] = [req.uid] := rfl
                rw [he]
                exact nodup_append_singleton hInv.itemUidsNodup (filter_nil_uid s req.uid hfl)
              · exact hInv.revIdsNodup
              · intro r hr
                have := hInv.revIdsLt r hr
                simp only []
                omega
              · intro r hr
                obtain ⟨it0, hit0, he⟩ := hInv.revItemMem r hr
                exact ⟨it0, List.mem_append_left _ hit0, he⟩
              · exact hInv.memberIdsNodup
              · intro m hm
                have := hInv.memberIdsLt m hm
                simp only []
                omega
              · intro m hm
                have := hInv.memberCollLt m hm
                simp only []
                omega
              · intro i hi
                have := hInv.invIdsLt i hi
                simp only []
                omega
              · intro i hi
                have := hInv.invCollLt i hi
                simp only []
                omega
              · intro c hc
                have := hInv.collIdsLt c hc
                simp only []
                omega
              · exact hInv.stokensLt
              · exact hInv.stokensNodup
            case mem => exact List.mem_append_right _ (by simp)
            case zero =>
              apply cnt_eq_zero
              intro r hr
              obtain ⟨it0, hit0, he⟩ := hInv.revItemMem r hr
              have := hInv.itemIdsLt it0 hit0
              simp only [← he]
              omega
            case one =>
              intro it hit hne
              rcases List.mem_append.mp hit with hx | hx
              · exact hInv.singleCurrent it hx
              · simp only [List.mem_singleton] at hx
                subst hx
                simp at hne
        | error e =>
            rw [hpr] at h
            cases h
  · next inst hfl =>
      dsimp only at h
      split at h
      · cases h
      · have hinstmem : inst ∈ s.items := by
          have : inst ∈ s.items.filter (fun it => it.uid == some req.uid) := by
            rw [hfl]; simp
          exact List.mem_of_mem_filter this
        split at h
        · cases h
        · next cur hfc =>
            cases hpr : processRevisionsForItem inst req.content (demoteRev s cur.id) with
            | ok p =>
                obtain ⟨s2, rid⟩ := p
                rw [hpr] at h
                simp only [Except.ok.injEq] at h
                subst h
                exact inv_demote_process s inst cur req.content s2 rid hInv hinstmem hfc hpr
            | error e =>
                rw [hpr] at h
                cases h
  · cases h

theorem memberCreate_ok (s : State) (cid user : Nat) (lvl : AccessLevel) (key : Bytes)
    (s' : State) (m : Member) (h : memberCreate s cid user lvl key = .ok (s', m)) :
    m = ⟨s.nextId, cid, user, lvl, key, s.stokenCounter⟩ ∧
    s'.members = s.members ++ [m] ∧ s'.items = s.items ∧ s'.revisions = s.revisions ∧
    s'.chunks = s.chunks ∧ s'.revChunks = s.revChunks ∧ s'.collections = s.collections ∧
    s'.invitations = s.invitations ∧ s'.nextId = s.nextId + 1 ∧
    s'.stokenCounter = s.stokenCounter + 1 ∧
    (∀ m' ∈ s.members, ¬(m'.collectionId = cid ∧ m'.user = user)) := by
  unfold memberCreate at h
  split at h
  · cases h
  · next hany =>
      simp only [Except.ok.injEq, Prod.mk.injEq] at h
      obtain ⟨h1, h2⟩ := h
      subst h1
      subst h2
      refine ⟨rfl, rfl, rfl, rfl, rfl, rfl, rfl, rfl, rfl, rfl, ?_⟩
      intro m' hm' hc
      apply hany
      rw [List.any_eq_true]
      exact ⟨m', hm', by simp [hc.1, hc.2]⟩

theorem memberCreate_err (s : State) (cid user : Nat) (lvl : AccessLevel) (key : Bytes)
    (h : ∃ m' ∈ s.members, m'.collectionId = cid ∧ m'.user = user) :
    memberCreate s cid user lvl key = .error .integrityError := by
  unfold memberCreate
  rw [if_pos]
  rw [List.any_eq_true]
  obtain ⟨m', hm', hc⟩ := h
  exact ⟨m', hm', by simp [hc.1, hc.2]⟩

theorem inv_memberCreate (s : State) (cid user : Nat) (lvl : AccessLevel) (key : Bytes)
    (s' : State) (m : Member) (hInv : DbInv s) (hcid : cid < s.nextId)
    (h : memberCreate s cid user lvl key = .ok (s', m)) : DbInv s' := by
  obtain ⟨hm, e1, e2, e3, e4, e5, e6, e7, e8, e9, -⟩ := memberCreate_ok s cid user lvl key s' m h
  have hstok : stokenList s' = stokenList s ++ [m.stoken] := by
    unfold stokenList
    rw [e1, e3]
    simp
  have hpreNew : PreInv s' := by
    refine PreInv.mk ?_ ?_ ?_ ?_ ?_ ?_ ?_ ?_ ?_ ?_ ?_ ?_ ?_ ?_
    · rw [e2]; exact hInv.itemIdsNodup
    · rw [e2, e8]; intro it hit; have := hInv.itemIdsLt it hit; omega
    · rw [e2]; exact hInv.itemUidsNodup
    · rw [e3]; exact hInv.revIdsNodup
    · rw [e3, e8]; intro r hr; have := hInv.revIdsLt r hr; omega
    · rw [e3, e2]; exact hInv.revItemMem
    · rw [e1]
      simp only [List.map_append, List.map_cons, List.map_nil]
      apply nodup_append_singleton hInv.memberIdsNodup
      intro hc
      obtain ⟨m0, hm0, hid0⟩ := List.mem_map.mp hc
      have := hInv.memberIdsLt m0 hm0
      rw [hm] at hid0
      simp only [] at hid0
      omega
    · rw [e1, e8]
      intro m0 hm0
      rcases List.mem_append.mp hm0 with hx | hx
      · have := hInv.memberIdsLt m0 hx; omega
      · simp only [List.mem_singleton] at hx
        subst hx
        rw [hm]
        simp only []
        omega
    · rw [e1, e8]
      intro m0 hm0
      rcases List.mem_append.mp hm0 with hx | hx
      · have := hInv.memberCollLt m0 hx; omega
      · simp only [List.mem_singleton] at hx
        subst hx
        rw [hm]
        simp only []
        omega
    · rw [e7, e8]; intro i hi; have := hInv.invIdsLt i hi; omega
    · rw [e7, e8]; intro i hi; have := hInv.invCollLt i hi; omega
    · rw [e6, e8]; intro c hc; have := hInv.collIdsLt c hc; omega
    · rw [hstok, e9, hm]
      intro t ht
      rcases List.mem_append.mp ht with hx | hx
      · have := hInv.stokensLt t hx
        omega
      · simp only [List.mem_singleton] at hx
        subst hx
        omega
    · rw [hstok, hm]
      apply nodup_append_singleton hInv.stokensNodup
      intro hc
      have := hInv.stokensLt _ hc
      simp only [] at this
      omega
  refine DbInv.mk hpreNew ?_
  rw [e2, e3]
  exact hInv.singleCurrent

theorem inv_collectionCreate (req : CollCreateReq) (s s' : State)
    (hInv : DbInv s) (h : collectionCreate req s = .ok s') : DbInv s' := by
  unfold collectionCreate at h
  split at h
  · cases h
  · dsimp only at h
    split at h
    · cases h
    · next s3 x heq =>
        split at h
        · cases h
        · next s4 m heq2 =>
            simp only [Except.ok.injEq] at h
            subst h
            have hdb3 : DbInv s3 := by
              apply inv_fresh_process _ _ _ _ _ ?pre ?mem ?zero ?one heq
              case pre =>
                refine PreInv.mk ?_ ?_ ?_ ?_ ?_ ?_ ?_ ?_ ?_ ?_ ?_ ?_ ?_ ?_
                · dsimp only
                  simp only [List.map_append, List.map_cons, List.map_nil]
                  apply nodup_append_singleton hInv.itemIdsNodup
                  intro hc
                  obtain ⟨it0, hit0, hid0⟩ := List.mem_map.mp hc
                  have := hInv.itemIdsLt it0 hit0
                  omega
                · dsimp only
                  intro it hit
                  rcases List.mem_append.mp hit with hx | hx
                  · have := hInv.itemIdsLt it hx
                    omega
                  · simp only [List.mem_singleton] at hx
                    subst hx
                    dsimp only
                    omega
                · dsimp only
                  simp only [List.filterMap_append]
                  have he : List.filterMap (fun it => it.uid)
                      [(⟨s.nextId + 1, none, req.version, none, some s.nextId⟩ : Item)]
                      = [] := rfl
                  rw [he, List.append_nil]
                  exact hInv.itemUidsNodup
                · exact hInv.revIdsNodup
                · dsimp only
                  intro r hr
                  have := hInv.revIdsLt r hr
                  omega
                · dsimp only
                  intro r hr
                  obtain ⟨it0, hit0, he⟩ := hInv.revItemMem r hr
                  exact ⟨it0, List.mem_append_left _ hit0, he⟩
                · exact hInv.memberIdsNodup
                · dsimp only
                  intro m0 hm0
                  have := hInv.memberIdsLt m0 hm0
                  omega
                · dsimp only
                  intro m0 hm0
                  have := hInv.memberCollLt m0 hm0
                  omega
                · dsimp only
                  intro i hi
                  have := hInv.invIdsLt i hi
                  omega
                · dsimp only
                  intro i hi
                  have := hInv.invCollLt i hi
                  omega
                · dsimp only
                  intro c hc
                  rcases List.mem_append.mp hc with hx | hx
                  · have := hInv.collIdsLt c hx
                    omega
                  · simp only [List.mem_singleton] at hx
                    subst hx
                    dsimp only
                    omega
                · exact hInv.stokensLt
                · exact hInv.stokensNodup
              case mem => exact List.mem_append_right _ (by simp)
              case zero =>
                apply cnt_eq_zero
                intro r hr
                obtain ⟨it0, hit0, he⟩ := hInv.revItemMem r hr
                have := hInv.itemIdsLt it0 hit0
                simp only [← he]
                omega
              case one =>
                intro it hit hne
                rcases List.mem_append.mp hit with hx | hx
                · exact hInv.singleCurrent it hx
                · simp only [List.mem_singleton] at hx
                  subst hx
                  simp at hne
            obtain ⟨rev, objs, f1, f2, f3, f4, f5, f6, f7, f8, f9, f10, f11, f12, f13,
              f14, f15, f16, f17, f18⟩ := processRevisions_ok _ _ _ _ _ heq
            dsimp only at f16
            exact inv_memberCreate s3 s.nextId req.owner .admin req.encryptionKey s4 m
              hdb3 (by omega) heq2

theorem inv_collectionUpdate (uid : String) (etag : Option String) (rd : RevData)
    (s s' : State) (hInv : DbInv s) (h : collectionUpdate uid etag rd s = .ok s') :
    DbInv s' := by
  unfold collectionUpdate at h
  split at h
  · cases h
  · next inst hfind =>
      split at h
      · cases h
      · split at h
        · cases h
        · next mi hmi =>
            split at h
            · cases h
            · next cur hfc =>
                cases hpr : processRevisionsForItem mi rd (demoteRev s cur.id) with
                | ok p =>
                    obtain ⟨s2, rid⟩ := p
                    rw [hpr] at h
                    simp only [Except.ok.injEq] at h
                    subst h
                    have hmimem : mi ∈ s.items := List.mem_of_find?_eq_some hmi
                    exact inv_demote_process s mi cur rd s2 rid hInv hmimem hfc hpr
                | error e =>
                    rw [hpr] at h
                    cases h

theorem inv_memberUpdate (memberId : Nat) (lvl : AccessLevel) (s s' : State)
    (hInv : DbInv s) (h : collectionMemberUpdate memberId lvl s = .ok s') : DbInv s' := by
  unfold collectionMemberUpdate at h
  split at h
  · cases h
  · next inst hfind =>
      dsimp only at h
      split at h
      · next hne =>
          simp only [Except.ok.injEq] at h
          subst h
          have hinstmem : inst ∈ s.members := List.mem_of_find?_eq_some hfind
          have hinstid : inst.id = memberId := by
            have := List.find?_some hfind
            rwa [beq_iff_eq] at this
          obtain ⟨l1, l2, hl, hn1, hn2⟩ := nodup_decomp (fun m => m.id) s.members inst
            hinstmem hInv.memberIdsNodup
          have hmap : s.members.map (fun m => if m.id == memberId then
              { m with stoken := s.stokenCounter, accessLevel := lvl } else m)
              = l1 ++ { inst with stoken := s.stokenCounter, accessLevel := lvl } :: l2 := by
            rw [hl, List.map_append, List.map_cons]
            have e1 : l1.map (fun m => if m.id == memberId then
                { m with stoken := s.stokenCounter, accessLevel := lvl } else m) = l1 :=
              map_id_of_eq _ _ (fun a ha => by
                have hx := hn1 a ha
                rw [hinstid] at hx
                simp [hx])
            have e2 : l2.map (fun m => if m.id == memberId then
                { m with stoken := s.stokenCounter, accessLevel := lvl } else m) = l2 :=
              map_id_of_eq _ _ (fun a ha => by
                have hx := hn2 a ha
                rw [hinstid] at hx
                simp [hx])
            rw [e1, e2]
            simp [hinstid]
          have hl1sub : ∀ y ∈ l1, y ∈ s.members := by
            intro y hy
            rw [hl]
            exact List.mem_append_left _ hy
          have hl2sub : ∀ y ∈ l2, y ∈ s.members := by
            intro y hy
            rw [hl]
            exact List.mem_append_right _ (by simp [hy])
          have hstokNew : stokenList { s with
              stokenCounter := s.stokenCounter + 1,
              members := s.members.map (fun m => if m.id == memberId then
                { m with stoken := s.stokenCounter, accessLevel := lvl } else m) }
              = s.revisions.map (fun r => r.stoken) ++
                (l1.map (fun m => m.stoken) ++ s.stokenCounter :: l2.map (fun m => m.stoken)) := by
            unfold stokenList
            rw [hmap]
            simp
          have hstokOld : stokenList s = s.revisions.map (fun r => r.stoken) ++
              (l1.map (fun m => m.stoken) ++ inst.stoken :: l2.map (fun m => m.stoken)) := by
            unfold stokenList
            rw [hl]
            simp
          have hsub : ∀ t, t ∈ (s.revisions.map (fun r => r.stoken) ++
              l1.map (fun m => m.stoken)) ++ l2.map (fun m => m.stoken) →
              t ∈ stokenList s := by
            intro t ht
            unfold stokenList
            rcases List.mem_append.mp ht with hx | hx
            · rcases List.mem_append.mp hx with hy | hy
              · exact List.mem_append_left _ hy
              · obtain ⟨y, hy0, hy1⟩ := List.mem_map.mp hy
                exact List.mem_append_right _
                  (List.mem_map.mpr ⟨y, hl1sub y hy0, hy1⟩)
            · obtain ⟨y, hy0, hy1⟩ := List.mem_map.mp hx
              exact List.mem_append_right _
                (List.mem_map.mpr ⟨y, hl2sub y hy0, hy1⟩)
          refine DbInv.mk (PreInv.mk ?_ ?_ ?_ ?_ ?_ ?_ ?_ ?_ ?_ ?_ ?_ ?_ ?_ ?_) ?_
          · exact hInv.itemIdsNodup
          · exact hInv.itemIdsLt
          · exact hInv.itemUidsNodup
          · exact hInv.revIdsNodup
          · exact hInv.revIdsLt
          · exact hInv.revItemMem
          · dsimp only
            rw [hmap]
            have he : (l1 ++ ({ inst with stoken := s.stokenCounter, accessLevel := lvl }
                : Member) :: l2).map (fun m => m.id)
                = (l1 ++ inst :: l2).map (fun m => m.id) := by
              simp
            rw [he, ← hl]
            exact hInv.memberIdsNodup
          · dsimp only
            rw [hmap]
            intro m0 hm0
            rcases List.mem_append.mp hm0 with hx | hx
            · exact hInv.memberIdsLt m0 (hl1sub m0 hx)
            · rcases List.mem_cons.mp hx with hx | hx
              · subst hx
                exact hInv.memberIdsLt inst hinstmem
              · exact hInv.memberIdsLt m0 (hl2sub m0 hx)
          · dsimp only
            rw [hmap]
            intro m0 hm0
            rcases List.mem_append.mp hm0 with hx | hx
            · exact hInv.memberCollLt m0 (hl1sub m0 hx)
            · rcases List.mem_cons.mp hx with hx | hx
              · subst hx
                exact hInv.memberCollLt inst hinstmem
              · exact hInv.memberCollLt m0 (hl2sub m0 hx)
          · exact hInv.invIdsLt
          · exact hInv.invCollLt
          · exact hInv.collIdsLt
          · rw [hstokNew]
            intro t ht
            show t < s.stokenCounter + 1
            rcases List.mem_append.mp ht with hx | hx
            · have : t ∈ stokenList s := List.mem_append_left _ hx
              have := hInv.stokensLt t this
              omega
            · rcases List.mem_append.mp hx with hy | hy
              · have := hInv.stokensLt t (hsub t
                  (List.mem_append_left _ (List.mem_append_right _ hy)))
                omega
              · rcases List.mem_cons.mp hy with hy | hy
                · omega
                · have := hInv.stokensLt t (hsub t (List.mem_append_right _ hy))
                  omega
          · rw [hstokNew, ← List.append_assoc]
            apply nodup_insert_middle
            · have hold := hInv.stokensNodup
              rw [hstokOld, ← List.append_assoc, List.nodup_middle] at hold
              exact (List.nodup_cons.mp hold).2
            · intro hc
              have := hInv.stokensLt _ (hsub _ hc)
              omega
          · exact hInv.singleCurrent
      · simp only [Except.ok.injEq] at h
        subst h
        exact hInv

theorem inv_invite (req : InviteReq) (s s' : State)
    (hInv : DbInv s) (h : invitationCreate req s = .ok s') : DbInv s' := by
  unfold invitationCreate at h
  split at h
  · cases h
  · next coll hfind =>
      split at h
      · cases h
      · next member hget =>
          dsimp only at h
          simp only [Except.ok.injEq] at h
          subst h
          have hcollmem : coll ∈ s.collections := List.mem_of_find?_eq_some hfind
          refine DbInv.mk (PreInv.mk ?_ ?_ ?_ ?_ ?_ ?_ ?_ ?_ ?_ ?_ ?_ ?_ ?_ ?_) ?_
          · exact hInv.itemIdsNodup
          · dsimp only
            intro it hit
            have := hInv.itemIdsLt it hit
            omega
          · exact hInv.itemUidsNodup
          · exact hInv.revIdsNodup
          · dsimp only
            intro r hr
            have := hInv.revIdsLt r hr
            omega
          · exact hInv.revItemMem
          · exact hInv.memberIdsNodup
          · dsimp only
            intro m hm
            have := hInv.memberIdsLt m hm
            omega
          · dsimp only
            intro m hm
            have := hInv.memberCollLt m hm
            omega
          · dsimp only
            intro i hi
            rcases List.mem_append.mp hi with hx | hx
            · have := hInv.invIdsLt i hx
              omega
            · simp only [List.mem_singleton] at hx
              subst hx
              dsimp only
              omega
          · dsimp only
            intro i hi
            rcases List.mem_append.mp hi with hx | hx
            · have := hInv.invCollLt i hx
              omega
            · simp only [List.mem_singleton] at hx
              subst hx
              dsimp only
              have := hInv.collIdsLt coll hcollmem
              omega
          · dsimp only
            intro c hc
            have := hInv.collIdsLt c hc
            omega
          · exact hInv.stokensLt
          · exact hInv.stokensNodup
          · exact hInv.singleCurrent

theorem inv_accept (invId : Nat) (key : Bytes) (s s' : State)
    (hInv : DbInv s) (h : invitationAccept invId key s = .ok s') : DbInv s' := by
  unfold invitationAccept at h
  split at h
  · cases h
  · next invitation hfind =>
      split at h
      · cases h
      · next s1 m heq =>
          simp only [Except.ok.injEq] at h
          subst h
          have hinvmem : invitation ∈ s.invitations := List.mem_of_find?_eq_some hfind
          have hdb1 : DbInv s1 := inv_memberCreate s invitation.collectionId invitation.user
            invitation.accessLevel key s1 m hInv (hInv.invCollLt invitation hinvmem) heq
          refine DbInv.mk (PreInv.mk ?_ ?_ ?_ ?_ ?_ ?_ ?_ ?_ ?_ ?_ ?_ ?_ ?_ ?_) ?_
          · exact hdb1.itemIdsNodup
          · exact hdb1.itemIdsLt
          · exact hdb1.itemUidsNodup
          · exact hdb1.revIdsNodup
          · exact hdb1.revIdsLt
          · exact hdb1.revItemMem
          · exact hdb1.memberIdsNodup
          · exact hdb1.memberIdsLt
          · exact hdb1.memberCollLt
          · dsimp only
            intro i hi
            exact hdb1.invIdsLt i (List.mem_of_mem_filter hi)
          · dsimp only
            intro i hi
            exact hdb1.invCollLt i (List.mem_of_mem_filter hi)
          · exact hdb1.collIdsLt
          · exact hdb1.stokensLt
          · exact hdb1.stokensNodup
          · exact hdb1.singleCurrent

theorem inv_stepOp (op : MutOp) (s s' : State) (hInv : DbInv s)
    (h : stepOp op s = .ok s') : DbInv s' := by
  cases op with
  | itemUpsertOp ve req => exact inv_itemUpsert ve req s s' hInv h
  | collCreateOp req => exact inv_collectionCreate req s s' hInv h
  | collUpdateOp uid etag rd => exact inv_collectionUpdate uid etag rd s s' hInv h
  | memberAccessOp mid lvl => exact inv_memberUpdate mid lvl s s' hInv h
  | inviteOp req => exact inv_invite req s s' hInv h
  | acceptOp invId k => exact inv_accept invId k s s' hInv h

theorem inv_applyOp (op : MutOp) (s : State) (hInv : DbInv s) : DbInv (applyOp op s) := by
  unfold applyOp
  cases h : stepOp op s with
  | ok s1 => exact inv_stepOp op s s1 hInv h
  | error e => exact hInv

theorem inv_runOps (ops : List MutOp) : ∀ (s : State), DbInv s → DbInv (runOps ops s) := by
  induction ops with
  | nil => intro s hInv; exact hInv
  | cons op tl ih =>
      intro s hInv
      rw [show runOps (op :: tl) s = runOps tl (applyOp op s) from rfl]
      exact ih _ (inv_applyOp op s hInv)

/-! ### Stoken allocation bookkeeping -/

theorem map_eq_of_eq {α β : Type} (f g : α → β) (l : List α)
    (h : ∀ a ∈ l, f a = g a) : l.map f = l.map g := by
  induction l with
  | nil => rfl
  | cons a t ih =>
      simp only [List.map_cons, h a (by simp)]
      rw [ih (fun b hb => h b (by simp [hb]))]

theorem stokenList_demoteRev (s : State) (revId : Nat) :
    stokenList (demoteRev s revId) = stokenList s := by
  unfold stokenList demoteRev
  simp only [List.map_map]
  congr 1
  apply map_eq_of_eq
  intro a ha
  by_cases hx : (a.id == revId) = true <;> simp [Function.comp, hx]

theorem stoken_process (item : Item) (rd : RevData) (sp s' : State) (rid : Nat)
    (h : processRevisionsForItem item rd sp = .ok (s', rid)) :
    s'.stokenCounter = sp.stokenCounter + 1 ∧
    ∀ t ∈ stokenList s', t ∈ stokenList sp ∨ sp.stokenCounter ≤ t := by
  obtain ⟨rev, objs, f1, f2, f3, f4, f5, f6, f7, f8, f9, f10, f11, f12, f13, f14, f15,
    f16, f17, f18⟩ := processRevisions_ok item rd sp s' rid h
  refine ⟨f18, ?_⟩
  intro t ht
  have hs : stokenList s' = sp.revisions.map (fun r => r.stoken) ++ rev.stoken ::
      sp.members.map (fun m => m.stoken) := by
    simp [stokenList, f8, f10]
  rw [hs] at ht
  rcases List.mem_append.mp ht with hx | hx
  · exact Or.inl (List.mem_append_left _ hx)
  · rcases List.mem_cons.mp hx with hx | hx
    · subst hx
      rw [f3]
      exact Or.inr (le_refl _)
    · exact Or.inl (List.mem_append_right _ hx)

theorem stoken_stepOp (op : MutOp) (s s' : State) (h : stepOp op s = .ok s') :
    s.stokenCounter ≤ s'.stokenCounter ∧
    ∀ t ∈ stokenList s', t ∈ stokenList s ∨ s.stokenCounter ≤ t := by
  cases op with
  | itemUpsertOp ve req =>
      simp only [stepOp] at h
      unfold itemUpsert at h
      split at h
      · next hfl =>
          dsimp only at h
          split at h
          · cases h
          · cases hpr : processRevisionsForItem ⟨s.nextId, some req.uid, req.version,
                some req.encryptionKey, req.collectionId⟩ req.content
                { s with nextId := s.nextId + 1,
                         items := s.items ++ [⟨s.nextId, some req.uid, req.version,
                           some req.encryptionKey, req.collectionId⟩] } with
            | ok p =>
                obtain ⟨s2, rid⟩ := p
                rw [hpr] at h
                simp only [Except.ok.injEq] at h
                subst h
                obtain ⟨g1, g2⟩ := stoken_process _ _ _ _ _ hpr
                dsimp only at g1
                exact ⟨by omega, g2⟩
            | error e =>
                rw [hpr] at h
                cases h
      · next inst hfl =>
          dsimp only at h
          split at h
          · cases h
          · split at h
            · cases h
            · next cur hfc =>
                cases hpr : processRevisionsForItem inst req.content (demoteRev s cur.id) with
                | ok p =>
                    obtain ⟨s2, rid⟩ := p
                    rw [hpr] at h
                    simp only [Except.ok.injEq] at h
                    subst h
                    obtain ⟨g1, g2⟩ := stoken_process _ _ _ _ _ hpr
                    rw [stokenList_demoteRev] at g2
                    have hds : (demoteRev s cur.id).stokenCounter = s.stokenCounter := rfl
                    exact ⟨by omega, g2⟩
                | error e =>
                    rw [hpr] at h
                    cases h
      · cases h
  | collCreateOp req =>
      simp only [stepOp] at h
      unfold collectionCreate at h
      split at h
      · cases h
      · dsimp only at h
        split at h
        · cases h
        · next s3 x heq =>
            split at h
            · cases h
            · next s4 m heq2 =>
                simp only [Except.ok.injEq] at h
                subst h
                obtain ⟨g1, g2⟩ := stoken_process _ _ _ _ _ heq
                dsimp only at g1
                obtain ⟨hm, e1, e2, e3, e4, e5, e6, e7, e8, e9, -⟩ :=
                  memberCreate_ok _ _ _ _ _ _ _ heq2
                have hs4 : stokenList s4 = stokenList s3 ++ [m.stoken] := by
                  unfold stokenList
                  rw [e1, e3]
                  simp
                constructor
                · omega
                · intro t ht
                  rw [hs4] at ht
                  rcases List.mem_append.mp ht with hx | hx
                  · rcases g2 t hx with hy | hy
                    · exact Or.inl hy
                    · exact Or.inr hy
                  · simp only [List.mem_singleton] at hx
                    subst hx
                    rw [hm]
                    dsimp only
                    exact Or.inr (by omega)
  | collUpdateOp uid etag rd =>
      simp only [stepOp] at h
      unfold collectionUpdate at h
      split at h
      · cases h
      · next inst hfind =>
          split at h
          · cases h
          · split at h
            · cases h
            · next mi hmi =>
                split at h
                · cases h
                · next cur hfc =>
                    cases hpr : processRevisionsForItem mi rd (demoteRev s cur.id) with
                    | ok p =>
                        obtain ⟨s2, rid⟩ := p
                        rw [hpr] at h
                        simp only [Except.ok.injEq] at h
                        subst h
                        obtain ⟨g1, g2⟩ := stoken_process _ _ _ _ _ hpr
                        rw [stokenList_demoteRev] at g2
                        have hds : (demoteRev s cur.id).stokenCounter = s.stokenCounter := rfl
                        exact ⟨by omega, g2⟩
                    | error e =>
                        rw [hpr] at h
                        cases h
  | memberAccessOp mid lvl =>
      simp only [stepOp] at h
      unfold collectionMemberUpdate at h
      split at h
      · cases h
      · next inst hfind =>
          dsimp only at h
          split at h
          · next hne =>
              simp only [Except.ok.injEq] at h
              subst h
              refine ⟨by dsimp only; omega, ?_⟩
              intro t ht
              unfold stokenList at ht
              rcases List.mem_append.mp ht with hx | hx
              · exact Or.inl (List.mem_append_left _ hx)
              · simp only [List.map_map] at hx
                obtain ⟨m0, hm0, hst⟩ := List.mem_map.mp hx
                by_cases hc : (m0.id == mid) = true
                · simp only [Function.comp, hc, if_true] at hst
                  dsimp only
                  exact Or.inr (by omega)
                · simp only [Function.comp, hc, if_false] at hst
                  refine Or.inl (List.mem_append_right _ ?_)
                  exact List.mem_map.mpr ⟨m0, hm0, hst⟩
          · simp only [Except.ok.injEq] at h
            subst h
            exact ⟨le_refl _, fun t ht => Or.inl ht⟩
  | inviteOp req =>
      simp only [stepOp] at h
      unfold invitationCreate at h
      split at h
      · cases h
      · split at h
        · cases h
        · next member hget =>
            dsimp only at h
            simp only [Except.ok.injEq] at h
            subst h
            exact ⟨le_refl _, fun t ht => Or.inl ht⟩
  | acceptOp invId key =>
      simp only [stepOp] at h
      unfold invitationAccept at h
      split at h
      · cases h
      · next invitation hfind =>
          split at h
          · cases h
          · next s1 m heq =>
              simp only [Except.ok.injEq] at h
              subst h
              obtain ⟨hm, e1, e2, e3, e4, e5, e6, e7, e8, e9, -⟩ :=
                memberCreate_ok _ _ _ _ _ _ _ heq
              have hs1 : stokenList { s1 with
                  invitations := s1.invitations.filter (fun i => !(i.id == invId)) }
                  = stokenList s1 := rfl
              rw [hs1]
              have hs1' : stokenList s1 = stokenList s ++ [m.stoken] := by
                unfold stokenList
                rw [e1, e3]
                simp [stokenList]
              constructor
              · dsimp only
                omega
              · intro t ht
                rw [hs1'] at ht
                rcases List.mem_append.mp ht with hx | hx
                · exact Or.inl hx
                · simp only [List.mem_singleton] at hx
                  subst hx
                  rw [hm]
                  exact Or.inr (le_refl _)

theorem stoken_applyOp (op : MutOp) (s : State) :
    s.stokenCounter ≤ (applyOp op s).stokenCounter := by
  unfold applyOp
  cases h : stepOp op s with
  | ok s1 => exact (stoken_stepOp op s s1 h).1
  | error e => exact le_refl _

theorem stoken_runOps (ops : List MutOp) : ∀ s : State,
    s.stokenCounter ≤ (runOps ops s).stokenCounter := by
  induction ops with
  | nil => intro s; exact le_refl _
  | cons op tl ih =>
      intro s
      calc s.stokenCounter ≤ (applyOp op s).stokenCounter := stoken_applyOp op s
        _ ≤ _ := ih (applyOp op s)

/-! ### Item uid uniqueness and the initial state -/

theorem filter_uid_le_one_aux (u : String) : ∀ (l : List Item),
    (l.filterMap (fun it => it.uid)).Nodup →
    (l.filter (fun it => it.uid == some u)).length ≤ 1 := by
  intro l
  induction l with
  | nil => intro _; simp
  | cons a t ih =>
      intro hnd
      cases ha : a.uid with
      | none =>
          rw [List.filterMap_cons, ha] at hnd
          rw [List.filter_cons]
          rw [if_neg (by simp [ha])]
          exact ih hnd
      | some v =>
          rw [List.filterMap_cons, ha] at hnd
          simp only [List.nodup_cons] at hnd
          obtain ⟨hv, hndt⟩ := hnd
          by_cases hvu : v = u
          · subst hvu
            rw [List.filter_cons, if_pos (by simp [ha])]
            have hft : t.filter (fun it => it.uid == some v) = [] := by
              rw [List.filter_eq_nil_iff]
              intro it hit hc
              simp only [beq_iff_eq] at hc
              exact hv (List.mem_filterMap.mpr ⟨it, hit, hc⟩)
            rw [hft]
            simp
          · rw [List.filter_cons, if_neg (by simp [ha, hvu])]
            exact ih hndt

theorem dbInv_initial : DbInv initialState := by
  refine DbInv.mk (PreInv.mk ?_ ?_ ?_ ?_ ?_ ?_ ?_ ?_ ?_ ?_ ?_ ?_ ?_ ?_) ?_
  all_goals simp [initialState, stokenList]

/-! ### The etag gate of item upsert -/

theorem itemUpsert_gate_char (req : ItemUpsertReq) (s : State) (hInv : DbInv s)
    (hres : refsResolve (s.chunks.map (fun c => c.uid)) req.content.chunksRelation = true) :
    (etagGate s req.uid req.etag = true → (itemUpsert true req s).isOk = true) ∧
    (etagGate s req.uid req.etag = false →
      itemUpsert true req s = .error (.validationError
        (wrongEtagMsg (curEtagOf s req.uid) req.etag))) := by
  unfold itemUpsert etagGate curEtagOf
  cases hfl : s.items.filter (fun it => it.uid == some req.uid) with
  | nil =>
      dsimp only
      have hiso := processRevisions_isOk ⟨s.nextId, some req.uid, req.version,
        some req.encryptionKey, req.collectionId⟩ req.content
        { s with nextId := s.nextId + 1,
                 items := s.items ++ [⟨s.nextId, some req.uid, req.version,
                   some req.encryptionKey, req.collectionId⟩] }
      have h2 : (processRevisionsForItem ⟨s.nextId, some req.uid, req.version,
          some req.encryptionKey, req.collectionId⟩ req.content
          { s with nextId := s.nextId + 1,
                   items := s.items ++ [⟨s.nextId, some req.uid, req.version,
                     some req.encryptionKey, req.collectionId⟩] }).isOk = true := by
        rw [hiso]
        exact hres
      constructor
      · intro hg
        have hg' : req.etag = none := by simpa using hg
        rw [hg']
        simp only [beq_self_eq_true, Bool.not_true, Bool.and_false, Bool.false_eq_true, if_false]
        cases hpr : processRevisionsForItem ⟨s.nextId, some req.uid, req.version,
            some req.encryptionKey, req.collectionId⟩ req.content
            { s with nextId := s.nextId + 1,
                     items := s.items ++ [⟨s.nextId, some req.uid, req.version,
                       some req.encryptionKey, req.collectionId⟩] } with
        | ok p => rfl
        | error e =>
            rw [hpr] at h2
            simp [Except.isOk, Except.toBool] at h2
      · intro hg
        cases hre : req.etag with
        | none => rw [hre] at hg; simp at hg
        | some x => rfl
  | cons inst rest =>
      cases rest with
      | cons b t =>
          have hle := filter_uid_le_one_aux req.uid s.items hInv.itemUidsNodup
          rw [hfl] at hle
          simp at hle
      | nil =>
          dsimp only
          have hinstmem : inst ∈ s.items := by
            have : inst ∈ s.items.filter (fun it => it.uid == some req.uid) := by
              rw [hfl]; simp
            exact List.mem_of_mem_filter this
          have hcnt := hInv.singleCurrent inst hinstmem
          obtain ⟨cur, hfc⟩ := firstCurrent_of_cnt_one s inst.id hcnt
          have hiso := processRevisions_isOk inst req.content (demoteRev s cur.id)
          have h2 : (processRevisionsForItem inst req.content (demoteRev s cur.id)).isOk
              = true := by
            rw [hiso]
            exact hres
          constructor
          · intro hg
            have hg' : req.etag = itemEtag s inst := by simpa using hg
            rw [hg']
            simp only [beq_self_eq_true, Bool.not_true, Bool.and_false, Bool.false_eq_true, if_false]
            rw [hfc]
            dsimp only
            cases hpr : processRevisionsForItem inst req.content (demoteRev s cur.id) with
            | ok p => rfl
            | error e =>
                rw [hpr] at h2
                simp [Except.isOk, Except.toBool] at h2
          · intro hg
            have hg2 : (itemEtag s inst == req.etag) = false := by
              rw [beq_eq_false_iff_ne] at hg ⊢
              exact fun hcc => hg hcc.symm
            rw [hg2]
            rfl

/-! ### Characterization of collection creation -/

theorem isOk_exists {ε α : Type} (x : Except ε α) (h : x.isOk = true) : ∃ a, x = .ok a := by
  cases x with
  | ok a => exact ⟨a, rfl⟩
  | error e => simp [Except.isOk, Except.toBool] at h

theorem collectionCreate_isOk (req : CollCreateReq) (s : State) (hInv : DbInv s)
    (hnull : req.etag = none)
    (hres : refsResolve (s.chunks.map (fun c => c.uid)) req.content.chunksRelation = true) :
    (collectionCreate req s).isOk = true := by
  unfold collectionCreate
  rw [if_neg (by simp [hnull])]
  dsimp only
  split
  · next e heq =>
      have h2 : (processRevisionsForItem ⟨s.nextId + 1, none, req.version, none, some s.nextId⟩
          req.content
          { s with
              nextId := s.nextId + 1 + 1,
              collections := s.collections ++ [⟨s.nextId, req.uid, req.version, req.owner⟩],
              items := s.items ++
                [⟨s.nextId + 1, none, req.version, none, some s.nextId⟩] }).isOk = true := by
        rw [processRevisions_isOk]
        exact hres
      rw [heq] at h2
      simp [Except.isOk, Except.toBool] at h2
  · next s3 x heq =>
      obtain ⟨rev, objs, f1, f2, f3, f4, f5, f6, f7, f8, f9, f10, f11, f12, f13, f14,
        f15, f16, f17, f18⟩ := processRevisions_ok _ _ _ _ _ heq
      split
      · next e heq2 =>
          unfold memberCreate at heq2
          rw [if_neg] at heq2
          · cases heq2
          · intro hany
            obtain ⟨m0, hm0, hc⟩ := List.any_eq_true.mp hany
            rw [f10] at hm0
            have := hInv.memberCollLt m0 hm0
            simp only [Bool.and_eq_true, beq_iff_eq] at hc
            omega
      · rfl

theorem collectionCreate_okChar (req : CollCreateReq) (s s' : State)
    (h : collectionCreate req s = .ok s') :
    ∃ (coll : Collection) (mi : Item) (rev : Revision) (mem : Member),
      coll = ⟨s.nextId, req.uid, req.version, req.owner⟩ ∧
      mi = ⟨s.nextId + 1, none, req.version, none, some s.nextId⟩ ∧
      s'.collections = s.collections ++ [coll] ∧
      s'.items = s.items ++ [mi] ∧
      s'.revisions = s.revisions ++ [rev] ∧ rev.itemId = mi.id ∧
      rev.current = some true ∧ rev.stoken = s.stokenCounter ∧
      s'.members = s.members ++ [mem] ∧ mem.collectionId = coll.id ∧
      mem.user = req.owner ∧ mem.accessLevel = .admin ∧
      mem.encryptionKey = req.encryptionKey ∧ mem.stoken = s.stokenCounter + 1 ∧
      s'.invitations = s.invitations := by
  unfold collectionCreate at h
  split at h
  · cases h
  · dsimp only at h
    split at h
    · cases h
    · next s3 x heq =>
        split at h
        · cases h
        · next s4 m heq2 =>
            simp only [Except.ok.injEq] at h
            subst h
            obtain ⟨rev, objs, f1, f2, f3, f4, f5, f6, f7, f8, f9, f10, f11, f12, f13,
              f14, f15, f16, f17, f18⟩ := processRevisions_ok _ _ _ _ _ heq
            obtain ⟨hm, e1, e2, e3, e4, e5, e6, e7, e8, e9, -⟩ :=
              memberCreate_ok _ _ _ _ _ _ _ heq2
            dsimp only at f3 f7 f9 f10 f11 f12 f18
            refine ⟨⟨s.nextId, req.uid, req.version, req.owner⟩,
              ⟨s.nextId + 1, none, req.version, none, some s.nextId⟩, rev, m,
              rfl, rfl, ?_, ?_, ?_, ?_, f6, ?_, ?_, ?_, ?_, ?_, ?_, ?_, ?_⟩
            · rw [e6, f11]
            · rw [e2, f9]
            · rw [e3, f8]
            · exact f7
            · exact f3
            · rw [e1, f10]
            · rw [hm]
            · rw [hm]
            · rw [hm]
            · rw [hm]
            · rw [hm]
              dsimp only
              rw [f18]
            · rw [e7, f12]

/-! ### Claims -/

/-- C1: after any sequence of successful item upserts and collection updates
(and, more generally, any of the engine's mutations), every item row has
exactly one revision marked current, and an item id with no row has zero;
each successful mutation on an existing item demotes the old current revision
and creates exactly one new current revision inside one atomic operation. -/
theorem single_current_invariant (ops : List MutOp) (s : State) (hInv : DbInv s) :
    (∀ it ∈ (runOps ops s).items, cnt (runOps ops s).revisions it.id = 1) ∧
    (∀ i : Nat, (∀ it ∈ (runOps ops s).items, it.id ≠ i) →
      cnt (runOps ops s).revisions i = 0) := by
  have hInv2 := inv_runOps ops s hInv
  refine ⟨hInv2.singleCurrent, ?_⟩
  intro i hni
  apply cnt_eq_zero
  intro r hr
  obtain ⟨it0, hit0, he⟩ := hInv2.revItemMem r hr
  rw [← he]
  exact hni it0 hit0

theorem single_current_invariant_witness :
    (∀ it ∈ (runOps opsW initialState).items,
      cnt (runOps opsW initialState).revisions it.id = 1) ∧
    (∀ i : Nat, (∀ it ∈ (runOps opsW initialState).items, it.id ≠ i) →
      cnt (runOps opsW initialState).revisions i = 0) :=
  single_current_invariant opsW initialState dbInv_initial

/-- C2: with strict etag checking requested, an item upsert succeeds iff the
client etag equals the uid of the item's current revision (or the item does
not exist and the etag is null); otherwise it fails with the etag-conflict
`ValidationError` reporting expected and got, and the failed call leaves the
state unchanged. -/
theorem etag_gate_spec (req : ItemUpsertReq) (s : State) (hInv : DbInv s)
    (hres : refsResolve (s.chunks.map (fun c => c.uid)) req.content.chunksRelation = true) :
    ((itemUpsert true req s).isOk = true ↔ etagGate s req.uid req.etag = true) ∧
    (etagGate s req.uid req.etag = false →
      itemUpsert true req s = .error (.validationError
        (wrongEtagMsg (curEtagOf s req.uid) req.etag)) ∧
      applyOp (.itemUpsertOp true req) s = s) := by
  obtain ⟨hpos, hneg⟩ := itemUpsert_gate_char req s hInv hres
  constructor
  · constructor
    · intro hok
      by_contra hc
      rw [Bool.not_eq_true] at hc
      rw [hneg hc] at hok
      simp [Except.isOk, Except.toBool] at hok
    · exact hpos
  · intro hg
    refine ⟨hneg hg, ?_⟩
    simp only [applyOp, stepOp]
    rw [hneg hg]

theorem etag_gate_spec_witness :
    ((itemUpsert true reqItemC2 initialState).isOk = true ↔
      etagGate initialState reqItemC2.uid reqItemC2.etag = true) ∧
    (etagGate initialState reqItemC2.uid reqItemC2.etag = false →
      itemUpsert true reqItemC2 initialState = .error (.validationError
        (wrongEtagMsg (curEtagOf initialState reqItemC2.uid) reqItemC2.etag)) ∧
      applyOp (.itemUpsertOp true reqItemC2) initialState = initialState) :=
  etag_gate_spec reqItemC2 initialState dbInv_initial (by decide)

/-- C3: stokens are allocated strictly monotonically and uniquely: every
stoken attached by a successful mutation committed earlier is strictly
smaller than every stoken attached by a successful mutation committed later,
and no two attached stokens are ever equal. -/
theorem stoken_monotonicity (s s1 s3 : State) (op1 op2 : MutOp) (mid : List MutOp)
    (hInv : DbInv s) (h1 : stepOp op1 s = .ok s1)
    (h3 : stepOp op2 (runOps mid s1) = .ok s3)
    (t1 t2 : Nat) (ht1 : t1 ∈ newStokens s s1)
    (ht2 : t2 ∈ newStokens (runOps mid s1) s3) :
    t1 < t2 ∧ (stokenList s3).Nodup := by
  have hInv1 : DbInv s1 := inv_stepOp op1 s s1 hInv h1
  have hInv2 : DbInv (runOps mid s1) := inv_runOps mid s1 hInv1
  have hInv3 : DbInv s3 := inv_stepOp op2 _ s3 hInv2 h3
  have ht1m := List.mem_filter.mp ht1
  have hlt1 : t1 < s1.stokenCounter := hInv1.stokensLt t1 ht1m.1
  have ht2m := List.mem_filter.mp ht2
  have ht2notin : t2 ∉ stokenList (runOps mid s1) := by
    have hx := ht2m.2
    simp at hx
    exact hx
  have hge2 : (runOps mid s1).stokenCounter ≤ t2 := by
    rcases (stoken_stepOp op2 _ s3 h3).2 t2 ht2m.1 with hx | hx
    · exact absurd hx ht2notin
    · exact hx
  have hmono : s1.stokenCounter ≤ (runOps mid s1).stokenCounter := stoken_runOps mid s1
  exact ⟨by omega, hInv3.stokensNodup⟩

theorem stoken_monotonicity_witness : (0 : Nat) < 2 ∧ (stokenList sW2).Nodup :=
  stoken_monotonicity initialState sW1 sW2 (.collCreateOp reqCollW)
    (.itemUpsertOp true reqItemW) [] dbInv_initial rfl rfl 0 2
    (by decide) (by decide)

/-- C4 counterexample: storing the same `(uid, bytes)` twice succeeds both
times but leaves two stored chunks with that uid, not one, refuting the
claimed dedup idempotence. -/
theorem chunk_dedup_counterexample :
    ∃ (s1 : State) (o1 : List Chunk),
      processChunks 0 initialState [("c1", some [1])] = .ok (s1, o1) ∧
      ∃ (s2 : State) (o2 : List Chunk),
        processChunks 0 s1 [("c1", some [1])] = .ok (s2, o2) ∧
        ¬ (s2.chunks.filter (fun c => c.uid == "c1")).length = 1 ∧
        (s2.chunks.filter (fun c => c.uid == "c1")).length = 2 := by
  refine ⟨_, _, rfl, _, _, rfl, by decide, by decide⟩

/-- C4 amended: storing inline chunk bytes always inserts a fresh chunk row
tied to the target item with no presence check, so storing twice with the
same `(uid, bytes)` succeeds both times and leaves two stored chunks under
that uid (one more per store). -/
theorem chunk_store_appends (itemId : Nat) (s : State) (u : String) (content : Bytes) :
    ∃ (s1 : State) (o1 : List Chunk),
      processChunks itemId s [(u, some content)] = .ok (s1, o1) ∧
      s1.chunks = s.chunks ++ [⟨s.nextId, u, itemId, content⟩] ∧
      ∃ (s2 : State) (o2 : List Chunk),
        processChunks itemId s1 [(u, some content)] = .ok (s2, o2) ∧
        s2.chunks = s1.chunks ++ [⟨s1.nextId, u, itemId, content⟩] ∧
        (s2.chunks.filter (fun c => c.uid == u)).length
          = (s.chunks.filter (fun c => c.uid == u)).length + 2 := by
  refine ⟨_, _, rfl, rfl, _, _, rfl, rfl, ?_⟩
  simp [storeChunk, List.filter_append]

/-- C5: creating a revision processes the chunk references in order (an
inline reference stores a chunk, a uid-only reference resolves from the
store and the call fails when the uid is absent), allocates a fresh stoken,
creates the revision as current with chunk links in exactly the input
order, and demotes nothing (all prior revisions are left untouched). -/
theorem process_revisions_for_item_spec (item : Item) (rd : RevData) (s : State) :
    ((processRevisionsForItem item rd s).isOk = true ↔
      refsResolve (s.chunks.map (fun c => c.uid)) rd.chunksRelation = true) ∧
    (∀ (s' : State) (rid : Nat), processRevisionsForItem item rd s = .ok (s', rid) →
      ∃ (rev : Revision) (objs : List Chunk),
        rev.id = rid ∧ rev.uid = rd.uid ∧ rev.stoken = s.stokenCounter ∧
        rev.meta = rd.meta ∧ rev.deleted = rd.deleted ∧ rev.current = some true ∧
        rev.itemId = item.id ∧
        s'.revisions = s.revisions ++ [rev] ∧
        s'.stokenCounter = s.stokenCounter + 1 ∧
        s'.revChunks = s.revChunks ++ objs.map (fun c => (rev.id, c.id)) ∧
        objs.map (fun c => c.uid) = rd.chunksRelation.map (fun r => r.1)) := by
  constructor
  · rw [processRevisions_isOk item rd s]
  · intro s' rid h
    obtain ⟨rev, objs, f1, f2, f3, f4, f5, f6, f7, f8, f9, f10, f11, f12, f13, f14,
      f15, f16, f17, f18⟩ := processRevisions_ok item rd s s' rid h
    exact ⟨rev, objs, f1, f2, f3, f4, f5, f6, f7, f8, f18, f14, f15⟩

theorem process_revisions_for_item_spec_witness :
    (processRevisionsForItem itemW rdW initialState).isOk = true ∧
    ∃ (s' : State) (rid : Nat),
      processRevisionsForItem itemW rdW initialState = .ok (s', rid) := by
  refine ⟨(process_revisions_for_item_spec itemW rdW initialState).1.mpr (by decide), ?_⟩
  exact ⟨_, _, rfl⟩

/-- C6: creating a collection with a null client etag atomically creates the
collection row, one main item with null uid and null encryption key owned by
it, that item's initial current revision, and exactly one ADMIN membership
for the owner with a fresh stoken; a non-null client etag fails with
`ValidationError` and writes nothing. -/
theorem collection_create_spec (req : CollCreateReq) (s : State) (hInv : DbInv s) :
    (req.etag ≠ none →
      collectionCreate req s = .error (.validationError "Stoken is not None") ∧
      applyOp (.collCreateOp req) s = s) ∧
    (req.etag = none →
      refsResolve (s.chunks.map (fun c => c.uid)) req.content.chunksRelation = true →
      ∃ (s' : State) (coll : Collection) (mi : Item) (rev : Revision) (mem : Member),
        collectionCreate req s = .ok s' ∧
        coll.uid = req.uid ∧ coll.version = req.version ∧ coll.owner = req.owner ∧
        s'.collections = s.collections ++ [coll] ∧
        s'.items = s.items ++ [mi] ∧ mi.uid = none ∧ mi.encryptionKey = none ∧
        mi.version = req.version ∧ mi.collectionId = some coll.id ∧
        s'.revisions = s.revisions ++ [rev] ∧ rev.itemId = mi.id ∧
        rev.current = some true ∧ rev.stoken = s.stokenCounter ∧
        s'.members = s.members ++ [mem] ∧ mem.collectionId = coll.id ∧
        mem.user = req.owner ∧ mem.accessLevel = .admin ∧
        mem.encryptionKey = req.encryptionKey ∧ mem.stoken = s.stokenCounter + 1 ∧
        s'.invitations = s.invitations) := by
  constructor
  · intro hne
    have herr : collectionCreate req s = .error (.validationError "Stoken is not None") := by
      unfold collectionCreate
      rw [if_pos hne]
    refine ⟨herr, ?_⟩
    simp only [applyOp, stepOp]
    rw [herr]
  · intro hnull hres
    obtain ⟨s', hok⟩ := isOk_exists _ (collectionCreate_isOk req s hInv hnull hres)
    obtain ⟨coll, mi, rev, mem, hc, hm, g1, g2, g3, g4, g5, g6, g7, g8, g9, g10, g11,
      g12, g13⟩ := collectionCreate_okChar req s s' hok
    subst hc
    subst hm
    exact ⟨s', _, _, rev, mem, hok, rfl, rfl, rfl, g1, g2, rfl, rfl, rfl, rfl, g3, g4,
      g5, g6, g7, g8, g9, g10, g11, g12, g13⟩

theorem collection_create_spec_witness :
    collectionCreate reqCollBad initialState
      = .error (.validationError "Stoken is not None") ∧
    (collectionCreate reqCollW initialState).isOk = true := by
  have h1 := collection_create_spec reqCollBad initialState dbInv_initial
  have h2 := collection_create_spec reqCollW initialState dbInv_initial
  refine ⟨(h1.1 (by decide)).1, ?_⟩
  obtain ⟨s', c, m, r, me, hok, hrest⟩ := h2.2 rfl (by decide)
  rw [hok]
  rfl

/-- C7: accepting an invitation atomically creates a membership whose
collection, user and access level are copied from the invitation, with the
caller-supplied key and a fresh stoken, then deletes the invitation row; if
a membership for that (collection, user) pair already exists it fails with
`IntegrityError` and leaves everything unchanged. -/
theorem invitation_accept_spec (invId : Nat) (key : Bytes) (s : State) (inv : Invitation)
    (hfind : s.invitations.find? (fun i => i.id == invId) = some inv) :
    ((¬ ∃ m ∈ s.members, m.collectionId = inv.collectionId ∧ m.user = inv.user) →
      ∃ (s' : State) (mem : Member),
        invitationAccept invId key s = .ok s' ∧
        s'.members = s.members ++ [mem] ∧ mem.collectionId = inv.collectionId ∧
        mem.user = inv.user ∧ mem.accessLevel = inv.accessLevel ∧
        mem.encryptionKey = key ∧ mem.stoken = s.stokenCounter ∧
        s'.invitations = s.invitations.filter (fun i => !(i.id == invId)) ∧
        inv ∉ s'.invitations ∧
        s'.items = s.items ∧ s'.revisions = s.revisions ∧
        s'.collections = s.collections ∧ s'.chunks = s.chunks) ∧
    ((∃ m ∈ s.members, m.collectionId = inv.collectionId ∧ m.user = inv.user) →
      invitationAccept invId key s = .error .integrityError ∧
      applyOp (.acceptOp invId key) s = s) := by
  have hinvid : (inv.id == invId) = true := by
    have hx := List.find?_some hfind
    exact hx
  constructor
  · intro hno
    cases hmc : memberCreate s inv.collectionId inv.user inv.accessLevel key with
    | error e =>
        exfalso
        unfold memberCreate at hmc
        split at hmc
        · next hany =>
            obtain ⟨m0, hm0, hc⟩ := List.any_eq_true.mp hany
            simp only [Bool.and_eq_true, beq_iff_eq] at hc
            exact hno ⟨m0, hm0, hc⟩
        · cases hmc
    | ok p =>
        obtain ⟨s1, m⟩ := p
        obtain ⟨hm, e1, e2, e3, e4, e5, e6, e7, e8, e9, -⟩ :=
          memberCreate_ok _ _ _ _ _ _ _ hmc
        have hacc : invitationAccept invId key s =
            .ok { s1 with invitations := s1.invitations.filter (fun i => !(i.id == invId)) } := by
          unfold invitationAccept
          rw [hfind]
          dsimp only
          rw [hmc]
        refine ⟨_, m, hacc, ?_, ?_, ?_, ?_, ?_, ?_, ?_, ?_, ?_, ?_, ?_, ?_⟩
        · dsimp only
          rw [e1]
        · rw [hm]
        · rw [hm]
        · rw [hm]
        · rw [hm]
        · rw [hm]
        · dsimp only
          rw [e7]
        · intro hc
          dsimp only at hc
          have := List.of_mem_filter hc
          rw [hinvid] at this
          simp at this
        · dsimp only
          rw [e2]
        · dsimp only
          rw [e3]
        · dsimp only
          rw [e6]
        · dsimp only
          rw [e4]
  · intro hyes
    have herr : invitationAccept invId key s = .error .integrityError := by
      unfold invitationAccept
      rw [hfind]
      dsimp only
      rw [memberCreate_err s inv.collectionId inv.user inv.accessLevel key hyes]
    refine ⟨herr, ?_⟩
    simp only [applyOp, stepOp]
    rw [herr]

theorem invitation_accept_spec_witness :
    (¬ ∃ m ∈ sW3.members, m.collectionId = invW.collectionId ∧ m.user = invW.user) ∧
    ∃ (s' : State) (mem : Member),
      invitationAccept 6 [3] sW3 = .ok s' ∧
      s'.members = sW3.members ++ [mem] ∧ mem.collectionId = invW.collectionId ∧
      mem.user = invW.user ∧ mem.accessLevel = invW.accessLevel ∧
      mem.encryptionKey = [3] ∧ mem.stoken = sW3.stokenCounter ∧
      s'.invitations = sW3.invitations.filter (fun i => !(i.id == 6)) ∧
      invW ∉ s'.invitations ∧
      s'.items = sW3.items ∧ s'.revisions = sW3.revisions ∧
      s'.collections = sW3.collections ∧ s'.chunks = sW3.chunks := by
  have h := invitation_accept_spec 6 [3] sW3 invW (by decide)
  exact ⟨by decide, h.1 (by decide)⟩

/-- C8 (code bug): a member inviting their own user is not rejected: the
invitation is created.  The self-invite check lives in a method named
`validate_user`, but the serializer field is `username`, so the framework
dispatch (`validate_<field_name>`) never calls it.  The successful invite
creates exactly one invitation row and allocates no stoken. -/
theorem invite_self_allowed :
    ∃ s' : State, invitationCreate reqInviteSelf sW1 = .ok s' ∧
      s'.invitations.length = sW1.invitations.length + 1 ∧
      (∀ i ∈ s'.invitations, i.user = reqInviteSelf.requestUser ∧
        i.user = reqInviteSelf.inviteeUser) ∧
      s'.stokenCounter = sW1.stokenCounter := by
  refine ⟨_, rfl, by decide, by decide, by decide⟩

/-- C9: the base64url boundary encoding round-trips on every byte string,
and the output of `b64encode` never contains a padding character. -/
theorem b64_roundtrip (v : List Nat) (h : ∀ b ∈ v, b < 256) :
    b64decode (b64encode v) = some v ∧ ∀ c ∈ b64encode v, c ≠ '=' := by
  obtain ⟨body, hb, hne, hlen⟩ := encode_shape v
  have hstrip : b64encode v = body := by
    rw [b64encode, hb]
    exact pyStrip_body body _ hne
  rw [hstrip]
  refine ⟨?_, hne⟩
  rw [b64decode]
  have hpad : (4 - body.length % 4) % 4 = (3 - v.length % 3) % 3 := by omega
  rw [hpad, ← hb]
  exact decode_encode v h

theorem b64_roundtrip_witness :
    (∀ b ∈ [1, 255, 77, 0], b < 256) ∧
    b64decode (b64encode [1, 255, 77, 0]) = some [1, 255, 77, 0] ∧
    ∀ c ∈ b64encode [1, 255, 77, 0], c ≠ '=' := by
  have h := b64_roundtrip [1, 255, 77, 0] (by decide)
  exact ⟨by decide, h.1, h.2⟩

/-- C10: an upsert of an already existing item leaves the item rows (and
collections, members, invitations) unchanged, even though the request
carries fresh values for version, encryption key and collection: the only
changes are the demotion of the old current revision, the new current
revision, and chunk rows appended by the store. -/
theorem upsert_frame (ve : Bool) (req : ItemUpsertReq) (s : State) (inst : Item)
    (hfl : s.items.filter (fun it => it.uid == some req.uid) = [inst])
    (s' : State) (hok : itemUpsert ve req s = .ok s') :
    s'.items = s.items ∧ s'.collections = s.collections ∧ s'.members = s.members ∧
    s'.invitations = s.invitations ∧
    ∃ (cur rev : Revision),
      cur ∈ s.revisions ∧ cur.itemId = inst.id ∧ cur.current = some true ∧
      s'.revisions = s.revisions.map (fun r =>
        if r.id == cur.id then { r with current := none } else r) ++ [rev] ∧
      rev.itemId = inst.id ∧ rev.current = some true ∧
      (∃ nc, s'.chunks = s.chunks ++ nc) := by
  unfold itemUpsert at hok
  split at hok
  · next hfl2 =>
      rw [hfl] at hfl2
      cases hfl2
  · next inst2 hfl2 =>
      rw [hfl] at hfl2
      simp only [List.cons.injEq, and_true] at hfl2
      subst hfl2
      dsimp only at hok
      split at hok
      · cases hok
      · split at hok
        · cases hok
        · next cur hfc =>
            cases hpr : processRevisionsForItem inst req.content (demoteRev s cur.id) with
            | ok p =>
                obtain ⟨s2, rid⟩ := p
                rw [hpr] at hok
                simp only [Except.ok.injEq] at hok
                subst hok
                obtain ⟨hcmem, hcitem, hccur⟩ := firstCurrent_some s inst.id cur hfc
                obtain ⟨rev, objs, f1, f2, f3, f4, f5, f6, f7, f8, f9, f10, f11, f12,
                  f13, f14, f15, f16, f17, f18⟩ := processRevisions_ok _ _ _ _ _ hpr
                refine ⟨f9, f11, f10, f12, cur, rev, hcmem, hcitem, hccur, f8, f7, f6, f13⟩
            | error e =>
                rw [hpr] at hok
                cases hok
  · cases hok

theorem upsert_frame_witness :
    (applyOp (.itemUpsertOp true reqItemW2) sW2).items = sW2.items ∧
    (applyOp (.itemUpsertOp true reqItemW2) sW2).collections = sW2.collections ∧
    (applyOp (.itemUpsertOp true reqItemW2) sW2).members = sW2.members ∧
    (applyOp (.itemUpsertOp true reqItemW2) sW2).invitations = sW2.invitations ∧
    ∃ (cur rev : Revision),
      cur ∈ sW2.revisions ∧ cur.itemId = instW.id ∧ cur.current = some true ∧
      (applyOp (.itemUpsertOp true reqItemW2) sW2).revisions
        = sW2.revisions.map (fun r =>
            if r.id == cur.id then { r with current := none } else r) ++ [rev] ∧
      rev.itemId = instW.id ∧ rev.current = some true ∧
      (∃ nc, (applyOp (.itemUpsertOp true reqItemW2) sW2).chunks = sW2.chunks ++ nc) :=
  upsert_frame true reqItemW2 sW2 instW (by decide) _ rfl
